import Mathlib

/-!
Verification of the request-governance core of the referral-agent repository.

The development shallowly embeds the Python sources (`scraper_utils.py`,
`storage.py`) into Lean:

* Strings are Lean `String`s / `List Char`; the embedding of CPython's
  `urllib.parse` (`urlsplit`, `urlparse`, `urlunsplit`, `urlunparse`,
  version 3.11 semantics) covers URLs made of printable ASCII characters
  with no leading whitespace and no tab/CR/LF characters (CPython first
  strips those; the sanitising step is the identity on the covered
  domain) and no bracketed IPv6 hosts (CPython raises on mismatched
  brackets).  `str.lower()` is modelled on ASCII.
* Python `float` time and delays are modelled as `ℚ`.
* `hashlib.sha256(x).hexdigest()[:32]` (storage) and `hashlib.md5` (the
  LRU cache key) are deterministic digests of their input; the model
  represents a digest by its preimage string, so digest equality is
  preimage equality.  The spec itself treats hash collisions as
  negligible and not specially handled.
* Firestore operations are modelled by an explicit store state plus a
  boolean oracle saying whether each durable write / batch commit
  succeeds; a failed write leaves the durable store unchanged and the
  raised exception is the `.error` branch.
* `time.sleep(d)` advances the modelled clock by exactly `d`.
-/

namespace ReferralAgent

/-! ### ASCII character helpers (Python `str.lower`, character classes) -/

/-- ASCII lower-casing of one character, as CPython `str.lower` acts on
the ASCII range. -/
def lowerChar (c : Char) : Char :=
  if c = 'A' then 'a' else if c = 'B' then 'b' else if c = 'C' then 'c'
  else if c = 'D' then 'd' else if c = 'E' then 'e' else if c = 'F' then 'f'
  else if c = 'G' then 'g' else if c = 'H' then 'h' else if c = 'I' then 'i'
  else if c = 'J' then 'j' else if c = 'K' then 'k' else if c = 'L' then 'l'
  else if c = 'M' then 'm' else if c = 'N' then 'n' else if c = 'O' then 'o'
  else if c = 'P' then 'p' else if c = 'Q' then 'q' else if c = 'R' then 'r'
  else if c = 'S' then 's' else if c = 'T' then 't' else if c = 'U' then 'u'
  else if c = 'V' then 'v' else if c = 'W' then 'w' else if c = 'X' then 'x'
  else if c = 'Y' then 'y' else if c = 'Z' then 'z' else c

/-- The lowercase ASCII letters. -/
def lcChars : List Char :=
  ['a','b','c','d','e','f','g','h','i','j','k','l','m',
   'n','o','p','q','r','s','t','u','v','w','x','y','z']

/-- The uppercase ASCII letters. -/
def ucChars : List Char :=
  ['A','B','C','D','E','F','G','H','I','J','K','L','M',
   'N','O','P','Q','R','S','T','U','V','W','X','Y','Z']

/-- Characters allowed in a URL scheme by CPython's `urllib.parse`
(`scheme_chars`): ASCII letters, digits, and `+`, `-`, `.`. -/
def schemeChars : List Char :=
  ['a','b','c','d','e','f','g','h','i','j','k','l','m',
   'n','o','p','q','r','s','t','u','v','w','x','y','z',
   'A','B','C','D','E','F','G','H','I','J','K','L','M',
   'N','O','P','Q','R','S','T','U','V','W','X','Y','Z',
   '0','1','2','3','4','5','6','7','8','9','+','-','.']

/-- Membership test for `schemeChars`. -/
def isSchemeChar (c : Char) : Bool := c ∈ schemeChars

/-- ASCII alphabetic test (CPython `str.isascii() and str.isalpha()` on
one character). -/
def isAsciiAlpha (c : Char) : Bool := c ∈ lcChars ∨ c ∈ ucChars

/-- Delimiters ending the authority component in `_splitnetloc`. -/
def isNetlocDelim (c : Char) : Bool := c = '/' ∨ c = '?' ∨ c = '#'

/-- Python whitespace characters stripped by `str.strip()` (ASCII part). -/
def pyWsChars : List Char := [' ', '\t', '\n', '\x0d', '\x0b', '\x0c']

/-- Membership test for `pyWsChars`. -/
def isPyWs (c : Char) : Bool := c ∈ pyWsChars

/-! ### List-level splitting primitives -/

/-- Split a list at the first occurrence of `c`: `some (before, after)`
when `c` occurs (and `c ∉ before`), `none` otherwise.  This models
Python `str.split(c, 1)` / `str.find(c)`. -/
def splitOnFirst (c : Char) : List Char → Option (List Char × List Char)
  | [] => none
  | x :: xs =>
    if x = c then some ([], xs)
    else match splitOnFirst c xs with
      | none => none
      | some (a, b) => some (x :: a, b)

/-- Strip all trailing `/` characters, as Python `str.rstrip('/')`. -/
def rstripSlash (l : List Char) : List Char :=
  (l.reverse.dropWhile (fun c => c = '/')).reverse

/-- Strip Python whitespace from both ends, as `str.strip()`. -/
def stripPyWs (l : List Char) : List Char :=
  ((l.dropWhile isPyWs).reverse.dropWhile isPyWs).reverse

/-- Last path segment: the suffix after the final `/` (the whole list
when there is no `/`). -/
def lastSeg (l : List Char) : List Char :=
  (l.reverse.takeWhile (fun c => c ≠ '/')).reverse

/-- Everything up to and including the final `/` (empty when there is
no `/`). -/
def initSeg (l : List Char) : List Char :=
  (l.reverse.dropWhile (fun c => c ≠ '/')).reverse

/-! ### CPython `urllib.parse` embedding (the parts `scraper_utils.py` uses) -/

/-- Result of `urlsplit`. -/
structure SplitResult where
  scheme : List Char
  netloc : List Char
  path : List Char
  query : List Char
  fragment : List Char
deriving Repr, DecidableEq

/-- Scheme detection of CPython `urlsplit`: take the part before the
first `:` when it is nonempty, starts with an ASCII letter and consists
of scheme characters; the detected scheme is lower-cased and removed. -/
def splitScheme (u : List Char) : List Char × List Char :=
  match splitOnFirst ':' u with
  | none => ([], u)
  | some (pre, rest) =>
    if pre ≠ [] ∧ isAsciiAlpha (pre.headD ' ') ∧ pre.all isSchemeChar
    then (pre.map lowerChar, rest) else ([], u)

/-- Authority component of `_splitnetloc` (empty when the remainder
does not start with `//`). -/
def netlocPart (r : List Char) : List Char :=
  if r.take 2 = ['/', '/']
  then (r.drop 2).takeWhile (fun c => !(isNetlocDelim c)) else []

/-- Remainder after `_splitnetloc` (the input itself when it does not
start with `//`). -/
def netlocRest (r : List Char) : List Char :=
  if r.take 2 = ['/', '/']
  then (r.drop 2).dropWhile (fun c => !(isNetlocDelim c)) else r

/-- Split at the first `#`, as `url.split('#', 1)` (no-op without `#`). -/
def splitFragment (l : List Char) : List Char × List Char :=
  match splitOnFirst '#' l with
  | none => (l, [])
  | some (a, b) => (a, b)

/-- Split at the first `?`, as `url.split('?', 1)` (no-op without `?`). -/
def splitQuery (l : List Char) : List Char × List Char :=
  match splitOnFirst '?' l with
  | none => (l, [])
  | some (a, b) => (a, b)

/-- CPython `urlsplit` (with `allow_fragments=True`): scheme, then `//`
authority up to the first `/?#`, then fragment after the first `#`,
then query after the first `?` of what remains. -/
def urlsplitL (u : List Char) : SplitResult :=
  ⟨(splitScheme u).1,
   netlocPart (splitScheme u).2,
   (splitQuery (splitFragment (netlocRest (splitScheme u).2)).1).1,
   (splitQuery (splitFragment (netlocRest (splitScheme u).2)).1).2,
   (splitFragment (netlocRest (splitScheme u).2)).2⟩

/-- CPython `_splitparams`: split parameters after the first `;` of the
last path segment (of the whole path when it has no `/`). -/
def splitParams (p : List Char) : List Char × List Char :=
  if ';' ∈ p then
    if '/' ∈ p then
      match splitOnFirst ';' (lastSeg p) with
      | none => (p, [])
      | some (a, b) => (initSeg p ++ a, b)
    else
      match splitOnFirst ';' p with
      | none => (p, [])
      | some (a, b) => (a, b)
  else (p, [])

/-- Result of `urlparse`: `urlsplit` plus the params component. -/
structure ParseResult where
  scheme : List Char
  netloc : List Char
  path : List Char
  params : List Char
  query : List Char
  fragment : List Char
deriving Repr, DecidableEq

/-- CPython `urlparse`. -/
def urlparseL (u : List Char) : ParseResult :=
  ⟨(urlsplitL u).scheme, (urlsplitL u).netloc,
   (splitParams (urlsplitL u).path).1, (splitParams (urlsplitL u).path).2,
   (urlsplitL u).query, (urlsplitL u).fragment⟩

/-- Schemes for which CPython `urlunsplit` re-emits a `//` authority
marker even when the authority is empty (`uses_netloc`, CPython 3.11;
the empty string is also in the Python list but is excluded there by a
truthiness guard, so it is omitted here). -/
def usesNetlocSchemes : List (List Char) :=
  [['f','t','p'], ['h','t','t','p'], ['g','o','p','h','e','r'],
   ['n','n','t','p'], ['t','e','l','n','e','t'], ['i','m','a','p'],
   ['w','a','i','s'], ['f','i','l','e'], ['m','m','s'],
   ['h','t','t','p','s'], ['s','h','t','t','p'], ['s','n','e','w','s'],
   ['p','r','o','s','p','e','r','o'], ['r','t','s','p'],
   ['r','t','s','p','s'], ['r','t','s','p','u'], ['r','s','y','n','c'],
   ['s','v','n'], ['s','v','n','+','s','s','h'], ['s','f','t','p'],
   ['n','f','s'], ['g','i','t'], ['g','i','t','+','s','s','h'],
   ['w','s'], ['w','s','s']]

/-- CPython `urlunsplit`. -/
def urlunsplitL (scheme netloc path query fragment : List Char) : List Char :=
  let u := path
  let u := if netloc ≠ [] ∨ (scheme ≠ [] ∧ scheme ∈ usesNetlocSchemes ∧ u.take 2 ≠ ['/', '/'])
    then '/' :: '/' :: netloc ++ (if u ≠ [] ∧ u.headD '/' ≠ '/' then '/' :: u else u)
    else u
  let u := if scheme ≠ [] then scheme ++ ':' :: u else u
  let u := if query ≠ [] then u ++ '?' :: query else u
  if fragment ≠ [] then u ++ '#' :: fragment else u

/-- CPython `urlunparse`: re-attach params to the path, then `urlunsplit`. -/
def urlunparseL (scheme netloc path params query fragment : List Char) : List Char :=
  urlunsplitL scheme netloc
    (if params ≠ [] then path ++ ';' :: params else path) query fragment

/-! ### `scraper_utils.normalize_url` and `scraper_utils.extract_domain` -/

/-- The path adjustment of `normalize_url`: strip trailing slashes
except from the root path. -/
def normalizePath (p : List Char) : List Char :=
  if p = ['/'] then p else rstripSlash p

/-- The query tail appended by `urlunsplit`: nothing for an empty
query, otherwise `?` followed by the query. -/
def qTail (q : List Char) : List Char := if q = [] then [] else '?' :: q

/-- List-level body of `normalize_url` (the `base_url=None` case, the
only one used here): parse, strip the trailing slash from a non-root
path, lower-case the authority, drop the fragment, reassemble. -/
def normalizeList (u : List Char) : List Char :=
  urlunparseL (urlparseL u).scheme ((urlparseL u).netloc.map lowerChar)
    (normalizePath (urlparseL u).path) (urlparseL u).params (urlparseL u).query []

/-- Embedding of `scraper_utils.normalize_url` with no base URL. -/
def normalize_url (u : String) : String := ⟨normalizeList u.data⟩

/-- Embedding of `scraper_utils.extract_domain`:
`urlparse(url).netloc or url`. -/
def extract_domain (url : String) : String :=
  let netloc := (urlsplitL url.data).netloc
  if netloc ≠ [] then ⟨netloc⟩ else url

/-! ### `storage.JobStorage` (Firestore dedup store) -/

/-- The sha256 preimage computed by `JobStorage._get_url_hash`:
`url.lower().strip().rstrip('/')`.  The document id is the (injective
modulo negligible collisions) digest of this string, so two URLs get
the same document id exactly when their canonical forms agree. -/
def hashCanon (u : List Char) : List Char :=
  rstripSlash (stripPyWs (u.map lowerChar))

/-- Embedding of `JobStorage._get_url_hash`, represented by the digest
preimage (see `hashCanon`). -/
def _get_url_hash (url : String) : String := ⟨hashCanon url.data⟩

/-- Set-like insertion (Python `set.add` / overwrite of a Firestore
document that may already exist). -/
def insertKey (l : List String) (k : String) : List String :=
  if k ∈ l then l else l ++ [k]

/-- Errors raised by `storage.py`: `StorageError` on a missing `url`
field (validation) and `StorageError` wrapping a failed durable write. -/
inductive StorageErr where
  | validation
  | storageFailure
deriving Repr, DecidableEq

/-- A job dictionary, reduced to the only field `save_job` inspects:
whether it has a `url` key and its value. -/
structure JobData where
  url : Option String
deriving Repr, DecidableEq

/-- State of a `JobStorage` instance: the ids durably present in the
Firestore collection, the in-process `_seen_cache` set, and the
`_cache_loaded` flag. -/
structure JobStorage where
  durable : List String
  seen_cache : List String
  cache_loaded : Bool
deriving Repr, DecidableEq

/-- Embedding of `JobStorage._load_seen_cache`; `loadOk` says whether
the full collection scan succeeds. -/
def JobStorage._load_seen_cache (js : JobStorage) (loadOk : Bool) : JobStorage :=
  if js.cache_loaded then js
  else if loadOk then { js with seen_cache := js.durable, cache_loaded := true }
  else { js with seen_cache := [] }

/-- Embedding of `JobStorage.is_job_seen`. -/
def JobStorage.is_job_seen (js : JobStorage) (job_url : String) (loadOk : Bool) :
    Bool × JobStorage :=
  let js' := js._load_seen_cache loadOk
  (decide (_get_url_hash job_url ∈ js'.seen_cache), js')

/-- Embedding of `JobStorage.save_job`; `writeOk` says whether the
durable `document(job_hash).set(...)` succeeds.  On success the
document is written and then the hash is added to `_seen_cache`; on
failure a `StorageError` is raised and neither structure changes. -/
def JobStorage.save_job (js : JobStorage) (job : JobData) (writeOk : Bool) :
    Except StorageErr String × JobStorage :=
  match job.url with
  | none => (.error .validation, js)
  | some u =>
    let job_hash := _get_url_hash u
    if writeOk then
      (.ok job_hash,
       { js with durable := insertKey js.durable job_hash,
                 seen_cache := insertKey js.seen_cache job_hash })
    else (.error .storageFailure, js)

/-- Commit a buffered Firestore batch: all buffered writes land. -/
def applyBatch (durable : List String) (buf : List String) : List String :=
  buf.foldl insertKey durable

/-- Loop body of `save_jobs_batch`.  For each job with a `url`, the
write is buffered, the hash is added to `_seen_cache` immediately, and
every 450th buffered write triggers a commit; a final commit flushes
the remainder.  `commitOk i` says whether the `i`-th commit succeeds; a
failed commit raises out of the method with the cache mutations kept. -/
def batchLoop (commitOk : Nat → Bool) :
    List JobData → List String → Nat → Nat → List String → List String →
    (Except StorageErr Nat) × List String × List String
  | [], buf, count, ci, durable, cache =>
    if count % 450 ≠ 0 then
      if commitOk ci then (.ok count, applyBatch durable buf, cache)
      else (.error .storageFailure, durable, cache)
    else (.ok count, durable, cache)
  | job :: rest, buf, count, ci, durable, cache =>
    match job.url with
    | none => batchLoop commitOk rest buf count ci durable cache
    | some u =>
      let h := _get_url_hash u
      let buf' := buf ++ [h]
      let cache' := insertKey cache h
      let count' := count + 1
      if count' % 450 = 0 then
        if commitOk ci then
          batchLoop commitOk rest [] count' (ci + 1) (applyBatch durable buf') cache'
        else (.error .storageFailure, durable, cache')
      else batchLoop commitOk rest buf' count' ci durable cache'

/-- Embedding of `JobStorage.save_jobs_batch`. -/
def JobStorage.save_jobs_batch (js : JobStorage) (jobs : List JobData)
    (commitOk : Nat → Bool) : (Except StorageErr Nat) × JobStorage :=
  if jobs = [] then (.ok 0, js)
  else
    let r := batchLoop commitOk jobs [] 0 0 js.durable js.seen_cache
    (r.1, { js with durable := r.2.1, seen_cache := r.2.2 })

/-! ### `scraper_utils.retry_with_backoff` -/

/-- Backoff delay before the retry following failed attempt `attempt`
(0-based), before jitter: `min(base_delay * 2**attempt, max_delay)`
when exponential, else `min(base_delay * (attempt+1), max_delay)`. -/
def computeDelay (exponential : Bool) (base_delay max_delay : ℚ) (attempt : Nat) : ℚ :=
  if exponential then min (base_delay * 2 ^ attempt) max_delay
  else min (base_delay * (attempt + 1)) max_delay

/-- Outcome of running the retry wrapper: the returned value or the
final `RetryError` (carrying the last exception, `none` if no attempt
ran), the number of times the wrapped operation was invoked, and the
list of sleep durations in order. -/
structure RetryOutcome (ε α : Type) where
  result : Except (Option ε) α
  calls : Nat
  sleeps : List ℚ

/-- Loop of `retry_with_backoff`: `work i` is the outcome of the `i`-th
invocation of the wrapped operation, `jitter i` the uniform sample
`random.uniform(0, delay * 0.1)` drawn after failed attempt `i`.  The
`fuel` argument only bounds recursion; it is started at
`max_retries + 1`, matching `range(max_retries + 1)`. -/
def retryGo (work : Nat → Except ε α) (jitter : Nat → ℚ) (max_retries : Nat)
    (base_delay max_delay : ℚ) (exponential : Bool) :
    Nat → Nat → Option ε → RetryOutcome ε α
  | 0, attempt, last => ⟨.error last, attempt, []⟩
  | fuel + 1, attempt, _ =>
    match work attempt with
    | .ok a => ⟨.ok a, attempt + 1, []⟩
    | .error e =>
      if attempt < max_retries then
        let d := computeDelay exponential base_delay max_delay attempt
        let d := d + jitter attempt
        let r := retryGo work jitter max_retries base_delay max_delay exponential
          fuel (attempt + 1) (some e)
        ⟨r.result, r.calls, d :: r.sleeps⟩
      else ⟨.error (some e), attempt + 1, []⟩

/-- Embedding of `retry_with_backoff` applied to a zero-argument
operation. -/
def retry_with_backoff (work : Nat → Except ε α) (jitter : Nat → ℚ)
    (max_retries : Nat) (base_delay max_delay : ℚ) (exponential : Bool) :
    RetryOutcome ε α :=
  retryGo work jitter max_retries base_delay max_delay exponential
    (max_retries + 1) 0 none

/-! ### `scraper_utils.RateLimiter` -/

/-- Pointwise update of a map modelled as a function. -/
def updMap (f : String → Option ℚ) (k : String) (v : ℚ) : String → Option ℚ :=
  fun k' => if k' = k then some v else f k'

/-- State of a `RateLimiter`: configuration plus `last_request_time`
per domain (`none` models absence from the dict). -/
structure RateLimiter where
  min_delay : ℚ
  max_delay : ℚ
  last_request_time : String → Option ℚ

/-- Embedding of `RateLimiter.wait`.  `now` is `time.time()` at entry
and `draw` the sample `random.uniform(min_delay, max_delay)`.  Returns
the value returned to the caller, the duration actually slept, and the
new state; the timestamp stored is the time after the sleep. -/
def RateLimiter.wait (rl : RateLimiter) (domain : String) (now draw : ℚ) :
    ℚ × ℚ × RateLimiter :=
  match rl.last_request_time domain with
  | some last =>
    let elapsed := now - last
    if elapsed < draw then
      let sleep_time := draw - elapsed
      (sleep_time, sleep_time,
       { rl with last_request_time := updMap rl.last_request_time domain (now + sleep_time) })
    else (draw, 0, { rl with last_request_time := updMap rl.last_request_time domain now })
  | none => (draw, 0, { rl with last_request_time := updMap rl.last_request_time domain now })

/-! ### `scraper_utils.LRUCache` -/

/-- State of an `LRUCache`: configuration plus the `OrderedDict`
contents as a list in insertion order, oldest first.  An entry is the
md5 cache key (modelled by its preimage, the URL), the stored value and
its timestamp. -/
structure LRUCache (α : Type) where
  max_size : Nat
  ttl_seconds : ℚ
  cache : List (String × α × ℚ)

/-- Ordered-dict lookup. -/
def odFind (l : List (String × α × ℚ)) (k : String) : Option (α × ℚ) :=
  match l with
  | [] => none
  | (k', v) :: tl => if k' = k then some v else odFind tl k

/-- Ordered-dict key removal. -/
def odErase (l : List (String × α × ℚ)) (k : String) : List (String × α × ℚ) :=
  match l with
  | [] => []
  | (k', v) :: tl => if k' = k then tl else (k', v) :: odErase tl k

/-- Ordered-dict assignment `d[k] = v`: an existing key keeps its
position (CPython `OrderedDict` semantics); a new key is appended at
the most-recently-used end. -/
def odAssign (l : List (String × α × ℚ)) (k : String) (v : α × ℚ) :
    List (String × α × ℚ) :=
  match l with
  | [] => [(k, v)]
  | (k', v') :: tl => if k' = k then (k, v) :: tl else (k', v') :: odAssign tl k v

/-- The `while len(self._cache) >= self.max_size: popitem(last=False)`
eviction loop; `none` models the `KeyError` from popping an empty dict
(reachable only when `max_size = 0`). -/
def evictToCap (max_size : Nat) : List (String × α × ℚ) → Option (List (String × α × ℚ))
  | [] => if max_size = 0 then none else some []
  | e :: tl =>
    if (e :: tl).length ≥ max_size then evictToCap max_size tl else some (e :: tl)

/-- Embedding of `LRUCache.get` at time `now`: a missing key is a miss;
an expired entry is deleted and is a miss; a fresh hit is moved to the
most-recently-used end. -/
def LRUCache.get (c : LRUCache α) (url : String) (now : ℚ) :
    Option α × LRUCache α :=
  match odFind c.cache url with
  | none => (none, c)
  | some (v, ts) =>
    if now - ts > c.ttl_seconds then (none, { c with cache := odErase c.cache url })
    else (some v, { c with cache := odErase c.cache url ++ [(url, v, ts)] })

/-- Embedding of `LRUCache.set` at time `now`. -/
def LRUCache.set (c : LRUCache α) (url : String) (v : α) (now : ℚ) :
    Option (LRUCache α) :=
  (evictToCap c.max_size c.cache).map
    fun l => { c with cache := odAssign l url (v, now) }

/-- Operations driving an `LRUCache`, for reachability statements. -/
inductive CacheOp (α : Type) where
  | get (url : String) (now : ℚ)
  | set (url : String) (v : α) (now : ℚ)
  | clear

/-- Run one cache operation (a failing `set` on a full zero-capacity
cache raises in Python; the model keeps the state unchanged there,
which only makes the size invariant statement stronger). -/
def runCacheOp (c : LRUCache α) : CacheOp α → LRUCache α
  | .get url now => (c.get url now).2
  | .set url v now => (c.set url v now).getD c
  | .clear => { c with cache := [] }

/-! ### `scraper_utils.CircuitBreaker` -/

/-- State of a `CircuitBreaker`: configuration plus the per-key dicts.
`failures` and `last_failure` model `dict.get(key, 0)` defaults;
`state` models the lazily-inserted default `"closed"`. -/
structure CircuitBreaker where
  failure_threshold : Nat
  recovery_timeout : ℚ
  half_open_requests : Nat
  failures : String → Nat
  last_failure : String → ℚ
  state : String → String

/-- Pointwise update for the breaker's per-key maps. -/
def updNat (f : String → Nat) (k : String) (v : Nat) : String → Nat :=
  fun k' => if k' = k then v else f k'

/-- Pointwise update for the breaker's time map. -/
def updQ (f : String → ℚ) (k : String) (v : ℚ) : String → ℚ :=
  fun k' => if k' = k then v else f k'

/-- Pointwise update for the breaker's state map. -/
def updStr (f : String → String) (k : String) (v : String) : String → String :=
  fun k' => if k' = k then v else f k'

/-- A fresh breaker (all dicts empty). -/
def CircuitBreaker.init (failure_threshold : Nat) (recovery_timeout : ℚ)
    (half_open_requests : Nat) : CircuitBreaker :=
  ⟨failure_threshold, recovery_timeout, half_open_requests,
   fun _ => 0, fun _ => 0, fun _ => "closed"⟩

/-- Embedding of `CircuitBreaker._get_state` at time `now`: an open
circuit whose last failure is strictly older than `recovery_timeout`
transitions to half-open as a side effect of the read. -/
def CircuitBreaker._get_state (cb : CircuitBreaker) (key : String) (now : ℚ) :
    String × CircuitBreaker :=
  let st := cb.state key
  if st = "open" ∧ now - cb.last_failure key > cb.recovery_timeout then
    ("half-open", { cb with state := updStr cb.state key "half-open" })
  else (st, cb)

/-- Embedding of `CircuitBreaker.can_execute`. -/
def CircuitBreaker.can_execute (cb : CircuitBreaker) (key : String) (now : ℚ) :
    Bool × CircuitBreaker :=
  let r := cb._get_state key now
  (decide (r.1 = "closed" ∨ r.1 = "half-open"), r.2)

/-- Embedding of `CircuitBreaker.record_success`. -/
def CircuitBreaker.record_success (cb : CircuitBreaker) (key : String) : CircuitBreaker :=
  { cb with failures := updNat cb.failures key 0,
            state := updStr cb.state key "closed" }

/-- Embedding of `CircuitBreaker.record_failure` at time `now`. -/
def CircuitBreaker.record_failure (cb : CircuitBreaker) (key : String) (now : ℚ) :
    CircuitBreaker :=
  let f := cb.failures key + 1
  let cb := { cb with failures := updNat cb.failures key f,
                      last_failure := updQ cb.last_failure key now }
  if f ≥ cb.failure_threshold then { cb with state := updStr cb.state key "open" }
  else cb

/-- Fold a sequence of timed `record_failure` calls for one key. -/
def recordFailures (cb : CircuitBreaker) (key : String) (ts : List ℚ) : CircuitBreaker :=
  ts.foldl (fun c t => c.record_failure key t) cb

/-! ### Lemmas about the retry loop -/

/-- One loop step on a successful attempt. -/
theorem retryGo_step_ok {work : Nat → Except ε α} {jitter : Nat → ℚ} {mr : Nat}
    {b m : ℚ} {expo : Bool} {n attempt : Nat} {last : Option ε} {a : α}
    (h : work attempt = .ok a) :
    retryGo work jitter mr b m expo (n + 1) attempt last = ⟨.ok a, attempt + 1, []⟩ := by
  rw [retryGo, h]

/-- One loop step on a failed attempt with attempts remaining. -/
theorem retryGo_step_err_retry {work : Nat → Except ε α} {jitter : Nat → ℚ} {mr : Nat}
    {b m : ℚ} {expo : Bool} {n attempt : Nat} {last : Option ε} {e0 : ε}
    (h : work attempt = .error e0) (hlt : attempt < mr) :
    retryGo work jitter mr b m expo (n + 1) attempt last =
      ⟨(retryGo work jitter mr b m expo n (attempt + 1) (some e0)).result,
       (retryGo work jitter mr b m expo n (attempt + 1) (some e0)).calls,
       (computeDelay expo b m attempt + jitter attempt) ::
         (retryGo work jitter mr b m expo n (attempt + 1) (some e0)).sleeps⟩ := by
  rw [retryGo, h]
  simp [hlt]

/-- One loop step on a failed final attempt. -/
theorem retryGo_step_err_last {work : Nat → Except ε α} {jitter : Nat → ℚ} {mr : Nat}
    {b m : ℚ} {expo : Bool} {n attempt : Nat} {last : Option ε} {e0 : ε}
    (h : work attempt = .error e0) (hge : ¬ attempt < mr) :
    retryGo work jitter mr b m expo (n + 1) attempt last =
      ⟨.error (some e0), attempt + 1, []⟩ := by
  rw [retryGo, h]
  simp [hge]

/-- Running the loop from `attempt` with everything failing reaches the
last attempt, returns the final exception, and sleeps the scheduled
backoff after every non-final attempt. -/
theorem retryGo_all_fail (work : Nat → Except ε α) (jitter : Nat → ℚ) (e : Nat → ε)
    (mr : Nat) (b m : ℚ) (expo : Bool) (hfail : ∀ i, work i = .error (e i)) :
    ∀ fuel attempt last, fuel = mr + 1 - attempt → attempt ≤ mr →
    retryGo work jitter mr b m expo fuel attempt last =
      ⟨.error (some (e mr)), mr + 1,
       (List.range (mr - attempt)).map
         (fun j => computeDelay expo b m (attempt + j) + jitter (attempt + j))⟩ := by
  intro fuel
  induction fuel with
  | zero => intro attempt last hfuel hle; omega
  | succ n ih =>
    intro attempt last hfuel hle
    by_cases hlt : attempt < mr
    · rw [retryGo_step_err_retry (hfail attempt) hlt,
        ih (attempt + 1) (some (e attempt)) (by omega) (by omega)]
      have hrange : mr - attempt = (mr - (attempt + 1)) + 1 := by omega
      have hmap : (List.range (mr - attempt)).map
          (fun j => computeDelay expo b m (attempt + j) + jitter (attempt + j)) =
          (computeDelay expo b m attempt + jitter attempt) ::
            (List.range (mr - (attempt + 1))).map
              (fun j => computeDelay expo b m (attempt + 1 + j) + jitter (attempt + 1 + j)) := by
        rw [hrange, List.range_succ_eq_map, List.map_cons, List.map_map]
        refine congrArg₂ _ (by simp) (List.map_congr_left fun j _ => ?_)
        have harith : attempt + (j + 1) = attempt + 1 + j := by omega
        simp [Function.comp_apply, harith]
      rw [hmap]
    · have heq : attempt = mr := by omega
      subst heq
      rw [retryGo_step_err_last (hfail attempt) hlt]
      have h0 : attempt - attempt = 0 := by omega
      rw [h0]
      simp

/-- Running the loop from `attempt` where attempt `k` succeeds and all
earlier attempts fail returns the success value after `k + 1` calls. -/
theorem retryGo_succeeds (work : Nat → Except ε α) (jitter : Nat → ℚ) (e : Nat → ε)
    (v : α) (k mr : Nat) (b m : ℚ) (expo : Bool)
    (hfail : ∀ i, i < k → work i = .error (e i)) (hok : work k = .ok v) (hk : k ≤ mr) :
    ∀ fuel attempt last, fuel = mr + 1 - attempt → attempt ≤ k →
    retryGo work jitter mr b m expo fuel attempt last =
      ⟨.ok v, k + 1,
       (List.range (k - attempt)).map
         (fun j => computeDelay expo b m (attempt + j) + jitter (attempt + j))⟩ := by
  intro fuel
  induction fuel with
  | zero => intro attempt last hfuel hle; omega
  | succ n ih =>
    intro attempt last hfuel hle
    by_cases hak : attempt = k
    · subst hak
      rw [retryGo_step_ok hok]
      have h0 : attempt - attempt = 0 := by omega
      rw [h0]
      simp
    · have hlt : attempt < k := by omega
      rw [retryGo_step_err_retry (hfail attempt hlt) (by omega),
        ih (attempt + 1) (some (e attempt)) (by omega) (by omega)]
      have hrange : k - attempt = (k - (attempt + 1)) + 1 := by omega
      have hmap : (List.range (k - attempt)).map
          (fun j => computeDelay expo b m (attempt + j) + jitter (attempt + j)) =
          (computeDelay expo b m attempt + jitter attempt) ::
            (List.range (k - (attempt + 1))).map
              (fun j => computeDelay expo b m (attempt + 1 + j) + jitter (attempt + 1 + j)) := by
        rw [hrange, List.range_succ_eq_map, List.map_cons, List.map_map]
        refine congrArg₂ _ (by simp) (List.map_congr_left fun j _ => ?_)
        have harith : attempt + (j + 1) = attempt + 1 + j := by omega
        simp [Function.comp_apply, harith]
      rw [hmap]

/-! ### Claim C5 -/

/-- C5 (confirmed): a permanently failing operation is invoked exactly
`max_retries + 1` times and the wrapper then fails with a `RetryError`
carrying the exception of the final attempt as its cause; a succeeding
attempt returns its value with no further invocation. -/
theorem C5_retry_exhaustion_and_shortcircuit
    (work : Nat → Except ε α) (jitter : Nat → ℚ) (e : Nat → ε) (v : α) (k mr : Nat)
    (b m : ℚ) (expo : Bool) :
    ((∀ i, work i = .error (e i)) →
      (retry_with_backoff work jitter mr b m expo).result = .error (some (e mr)) ∧
      (retry_with_backoff work jitter mr b m expo).calls = mr + 1) ∧
    ((∀ i, i < k → work i = .error (e i)) → work k = .ok v → k ≤ mr →
      (retry_with_backoff work jitter mr b m expo).result = .ok v ∧
      (retry_with_backoff work jitter mr b m expo).calls = k + 1) := by
  constructor
  · intro hfail
    rw [retry_with_backoff,
      retryGo_all_fail work jitter e mr b m expo hfail (mr + 1) 0 none (by omega) (by omega)]
    exact ⟨rfl, rfl⟩
  · intro hfail hok hk
    rw [retry_with_backoff,
      retryGo_succeeds work jitter e v k mr b m expo hfail hok hk (mr + 1) 0 none
        (by omega) (by omega)]
    exact ⟨rfl, rfl⟩

/-- Witness for C5 at `max_retries = 2` and an operation failing with
exception `i` on attempt `i`. -/
theorem C5_witness :
    (retry_with_backoff (fun i => (.error i : Except Nat Nat)) (fun _ => 0) 2 1 30 true).result
        = .error (some 2) ∧
    (retry_with_backoff (fun i => (.error i : Except Nat Nat)) (fun _ => 0) 2 1 30 true).calls
        = 3 :=
  (C5_retry_exhaustion_and_shortcircuit (fun i => (.error i : Except Nat Nat))
    (fun _ => 0) (fun i => i) 0 0 2 1 30 true).1 (fun _ => rfl)

/-! ### Claim C8 -/

/-- C8 (confirmed): after each failed attempt with attempts remaining,
the wrapper sleeps exactly `min(base_delay * 2^attempt, max_delay)`
(exponential) or `min(base_delay * (attempt+1), max_delay)` (linear)
plus the jitter drawn uniformly from `[0, 0.1 * delay]`; with the
jitter in that range every sleep lies in `[delay, 1.1 * delay]`. -/
theorem C8_retry_backoff_schedule
    (work : Nat → Except ε α) (jitter : Nat → ℚ) (e : Nat → ε) (mr : Nat)
    (b m : ℚ) (expo : Bool)
    (hfail : ∀ i, work i = .error (e i))
    (hj : ∀ i, 0 ≤ jitter i ∧ jitter i ≤ computeDelay expo b m i * (1 / 10)) :
    (retry_with_backoff work jitter mr b m expo).sleeps =
      (List.range mr).map (fun (i : Nat) =>
        (if expo then min (b * 2 ^ i) m else min (b * ((i : ℚ) + 1)) m) + jitter i) ∧
    (∀ i, i < mr → ∃ s,
      (retry_with_backoff work jitter mr b m expo).sleeps[i]? = some s ∧
      computeDelay expo b m i ≤ s ∧ s ≤ computeDelay expo b m i * (11 / 10)) := by
  have heq : (retry_with_backoff work jitter mr b m expo).sleeps =
      (List.range mr).map (fun i => computeDelay expo b m i + jitter i) := by
    rw [retry_with_backoff,
      retryGo_all_fail work jitter e mr b m expo hfail (mr + 1) 0 none (by omega) (by omega)]
    simp
  constructor
  · rw [heq]
    exact List.map_congr_left fun i _ => by simp only [computeDelay]
  · intro i hi
    refine ⟨computeDelay expo b m i + jitter i, ?_, ?_, ?_⟩
    · rw [heq]
      simp [List.getElem?_map, List.getElem?_range, hi]
    · have := (hj i).1
      linarith
    · have := (hj i).2
      linarith

/-- Witness for C8 at `max_retries = 2`, `base_delay = 1`,
`max_delay = 30`, exponential backoff and zero jitter: the two sleeps
are 1 and 2 seconds. -/
theorem C8_witness :
    (retry_with_backoff (fun i => (.error i : Except Nat Nat)) (fun _ => (0 : ℚ))
      2 1 30 true).sleeps = [1, 2] := by
  have h := C8_retry_backoff_schedule (fun i => (.error i : Except Nat Nat))
    (fun _ => (0 : ℚ)) (fun i => i) 2 1 30 true (fun _ => rfl)
    (fun i => ⟨le_rfl, by
      have hnn : (0 : ℚ) ≤ computeDelay true 1 30 i := by
        simp only [computeDelay, if_pos rfl]
        exact le_min (by positivity) (by norm_num)
      linarith⟩)
  rw [h.1]
  norm_num [List.range_succ, min_def]

/-! ### Claim C7 -/

/-- C7 (corrected): `wait` draws a spacing from `[min_delay, max_delay]`;
with a previous call and elapsed time below the drawn spacing it sleeps
exactly the remainder and returns the slept amount; otherwise it does
not sleep but returns the drawn spacing (not the imposed delay 0); the
domain's timestamp is set to the post-wait time unconditionally and
other domains are untouched. -/
theorem C7_rate_limiter_wait (rl : RateLimiter) (d : String) (now draw : ℚ)
    (hdraw : rl.min_delay ≤ draw ∧ draw ≤ rl.max_delay) :
    ((rl.wait d now draw).2.2.last_request_time d = some (now + (rl.wait d now draw).2.1)) ∧
    (∀ d', d' ≠ d → (rl.wait d now draw).2.2.last_request_time d' = rl.last_request_time d') ∧
    (∀ last, rl.last_request_time d = some last → now - last < draw →
      (rl.wait d now draw).2.1 = draw - (now - last) ∧
      (rl.wait d now draw).1 = (rl.wait d now draw).2.1) ∧
    (∀ last, rl.last_request_time d = some last → ¬ now - last < draw →
      (rl.wait d now draw).2.1 = 0 ∧ (rl.wait d now draw).1 = draw) ∧
    (rl.last_request_time d = none →
      (rl.wait d now draw).2.1 = 0 ∧ (rl.wait d now draw).1 = draw) := by
  rcases hm : rl.last_request_time d with _ | last
  · have hw : rl.wait d now draw =
        (draw, 0, { rl with last_request_time := updMap rl.last_request_time d now }) := by
      unfold RateLimiter.wait
      rw [hm]
    rw [hw]
    refine ⟨by simp [updMap], fun d' h => by simp [updMap, h], ?_, ?_, fun _ => ⟨rfl, rfl⟩⟩
    · intro l hl
      cases hl
    · intro l hl
      cases hl
  · by_cases hlt : now - last < draw
    · have hw : rl.wait d now draw =
          (draw - (now - last), draw - (now - last),
           { rl with last_request_time :=
               updMap rl.last_request_time d (now + (draw - (now - last))) }) := by
        unfold RateLimiter.wait
        rw [hm]
        simp only [if_pos hlt]
      rw [hw]
      refine ⟨by simp [updMap], fun d' h => by simp [updMap, h], ?_, ?_, ?_⟩
      · intro l hl _
        cases hl
        exact ⟨rfl, rfl⟩
      · intro l hl hge
        cases hl
        exact absurd hlt hge
      · intro h
        cases h
    · have hw : rl.wait d now draw =
          (draw, 0, { rl with last_request_time := updMap rl.last_request_time d now }) := by
        unfold RateLimiter.wait
        rw [hm]
        simp only [if_neg hlt]
      rw [hw]
      refine ⟨by simp [updMap], fun d' h => by simp [updMap, h], ?_, ?_, ?_⟩
      · intro l hl hl2
        cases hl
        exact absurd hl2 hlt
      · intro l hl _
        exact ⟨rfl, rfl⟩
      · intro h
        cases h

/-- Witness for C7: a first call for a domain sleeps 0 but returns the
drawn spacing 3. -/
theorem C7_witness :
    ((⟨2, 5, fun _ => none⟩ : RateLimiter).wait "ex.com" 10 3).2.1 = 0 ∧
    ((⟨2, 5, fun _ => none⟩ : RateLimiter).wait "ex.com" 10 3).1 = 3 :=
  (C7_rate_limiter_wait ⟨2, 5, fun _ => none⟩ "ex.com" 10 3
    (by norm_num)).2.2.2.2 rfl

/-- C7 counterexample: with the last call 10 time units ago and a drawn
spacing of 3, `wait` does not sleep (the imposed delay is 0) yet
returns 3, refuting "its return value equals the actual delay imposed
on the caller (0 when it did not sleep)". -/
theorem C7_counterexample :
    ((⟨2, 5, fun _ => some 0⟩ : RateLimiter).wait "ex.com" 10 3).2.1 = 0 ∧
    ((⟨2, 5, fun _ => some 0⟩ : RateLimiter).wait "ex.com" 10 3).1 = 3 ∧
    ((⟨2, 5, fun _ => some 0⟩ : RateLimiter).wait "ex.com" 10 3).1 ≠
      ((⟨2, 5, fun _ => some 0⟩ : RateLimiter).wait "ex.com" 10 3).2.1 := by
  have hw : (⟨2, 5, fun _ => some 0⟩ : RateLimiter).wait "ex.com" 10 3 =
      (3, 0, { min_delay := 2, max_delay := 5,
               last_request_time := updMap (fun _ => some 0) "ex.com" 10 }) := by
    unfold RateLimiter.wait
    simp only
    rw [if_neg (by norm_num : ¬ (10 : ℚ) - 0 < 3)]
  rw [hw]
  norm_num

/-! ### Circuit breaker lemmas -/

/-- Field-level description of one `record_failure`. -/
theorem record_failure_fields (cb : CircuitBreaker) (k : String) (t : ℚ) :
    (cb.record_failure k t).failure_threshold = cb.failure_threshold ∧
    (cb.record_failure k t).recovery_timeout = cb.recovery_timeout ∧
    (cb.record_failure k t).failures k = cb.failures k + 1 ∧
    (cb.record_failure k t).last_failure k = t ∧
    (cb.record_failure k t).state k =
      (if cb.failures k + 1 ≥ cb.failure_threshold then "open" else cb.state k) := by
  unfold CircuitBreaker.record_failure
  by_cases h : cb.failures k + 1 ≥ cb.failure_threshold <;>
    simp [h, updNat, updQ, updStr]

/-- Config and failure count through a fold of failures. -/
theorem recordFailures_fields (k : String) : ∀ (ts : List ℚ) (cb : CircuitBreaker),
    (recordFailures cb k ts).failure_threshold = cb.failure_threshold ∧
    (recordFailures cb k ts).recovery_timeout = cb.recovery_timeout ∧
    (recordFailures cb k ts).failures k = cb.failures k + ts.length := by
  intro ts
  induction ts with
  | nil => intro cb; exact ⟨rfl, rfl, rfl⟩
  | cons t ts ih =>
    intro cb
    have hstep := record_failure_fields cb k t
    have hrec := ih (cb.record_failure k t)
    have hfold : recordFailures cb k (t :: ts) = recordFailures (cb.record_failure k t) k ts := rfl
    rw [hfold]
    refine ⟨hrec.1.trans hstep.1, hrec.2.1.trans hstep.2.1, ?_⟩
    rw [hrec.2.2, hstep.2.2.1]
    simp only [List.length_cons]
    omega

/-- First component of the lazy state read. -/
theorem getState_fst (cb : CircuitBreaker) (k : String) (now : ℚ) :
    (cb._get_state k now).1 =
      if cb.state k = "open" ∧ now - cb.last_failure k > cb.recovery_timeout
      then "half-open" else cb.state k := by
  show (if cb.state k = "open" ∧ now - cb.last_failure k > cb.recovery_timeout
    then ("half-open", { cb with state := updStr cb.state k "half-open" })
    else (cb.state k, cb)).1 = _
  split <;> rfl

/-- Second component (the mutated breaker) of the lazy state read. -/
theorem getState_snd (cb : CircuitBreaker) (k : String) (now : ℚ) :
    (cb._get_state k now).2 =
      if cb.state k = "open" ∧ now - cb.last_failure k > cb.recovery_timeout
      then { cb with state := updStr cb.state k "half-open" } else cb := by
  show (if cb.state k = "open" ∧ now - cb.last_failure k > cb.recovery_timeout
    then ("half-open", { cb with state := updStr cb.state k "half-open" })
    else (cb.state k, cb)).2 = _
  split <;> rfl

/-- The boolean answer of `can_execute` is exactly "read state is
closed or half-open". -/
theorem can_execute_iff_state (cb : CircuitBreaker) (k : String) (now : ℚ) :
    ((cb.can_execute k now).1 = true ↔
      ((cb._get_state k now).1 = "closed" ∨ (cb._get_state k now).1 = "half-open")) ∧
    (cb.can_execute k now).2 = (cb._get_state k now).2 := by
  unfold CircuitBreaker.can_execute
  exact ⟨by simp, rfl⟩

/-- An open circuit within the recovery window refuses execution. -/
theorem can_execute_open_within (cb : CircuitBreaker) (k : String) (tq : ℚ)
    (hst : cb.state k = "open") (hle : tq - cb.last_failure k ≤ cb.recovery_timeout) :
    (cb.can_execute k tq).1 = false := by
  have hget : (cb._get_state k tq).1 = "open" := by
    rw [getState_fst, if_neg (by rintro ⟨-, hgt⟩; linarith), hst]
  have hiff := (can_execute_iff_state cb k tq).1
  rw [hget] at hiff
  have : ¬ ((cb.can_execute k tq).1 = true) := by
    rw [hiff]
    rintro (h | h) <;> exact absurd h (by decide)
  revert this
  cases (cb.can_execute k tq).1 <;> simp

/-! ### Claim C3 -/

/-- C3 (corrected): once the consecutive-failure count reaches
`failure_threshold`, `can_execute` is false at every instant up to and
including the boundary where exactly `recovery_timeout` has elapsed
since the last failure (the open→half-open transition needs strictly
more than `recovery_timeout`), and `can_execute` is true exactly when
the lazily-evaluated state is closed or half-open. -/
theorem C3_circuit_opens_until_timeout
    (th : Nat) (timeout : ℚ) (hor : Nat) (k : String) (ts : List ℚ) (tlast : ℚ)
    (hth : 1 ≤ th) (hlen : th ≤ (ts ++ [tlast]).length) :
    (∀ tq, tq - tlast ≤ timeout →
      ((recordFailures (CircuitBreaker.init th timeout hor) k (ts ++ [tlast])).can_execute
        k tq).1 = false) ∧
    (∀ tq,
      (((recordFailures (CircuitBreaker.init th timeout hor) k (ts ++ [tlast])).can_execute
          k tq).1 = true ↔
        (((recordFailures (CircuitBreaker.init th timeout hor) k
            (ts ++ [tlast]))._get_state k tq).1 = "closed" ∨
         ((recordFailures (CircuitBreaker.init th timeout hor) k
            (ts ++ [tlast]))._get_state k tq).1 = "half-open"))) := by
  have hfold : recordFailures (CircuitBreaker.init th timeout hor) k (ts ++ [tlast]) =
      (recordFailures (CircuitBreaker.init th timeout hor) k ts).record_failure k tlast := by
    unfold recordFailures
    rw [List.foldl_append]
    rfl
  have hpre := recordFailures_fields k ts (CircuitBreaker.init th timeout hor)
  have hstep := record_failure_fields (recordFailures (CircuitBreaker.init th timeout hor) k ts)
    k tlast
  have hcount : (recordFailures (CircuitBreaker.init th timeout hor) k ts).failures k + 1 ≥
      (recordFailures (CircuitBreaker.init th timeout hor) k ts).failure_threshold := by
    rw [hpre.2.2, hpre.1]
    simp only [CircuitBreaker.init, List.length_append, List.length_cons,
      List.length_nil] at hlen ⊢
    omega
  have hopen : (recordFailures (CircuitBreaker.init th timeout hor) k
      (ts ++ [tlast])).state k = "open" := by
    rw [hfold, hstep.2.2.2.2, if_pos hcount]
  have hlf : (recordFailures (CircuitBreaker.init th timeout hor) k
      (ts ++ [tlast])).last_failure k = tlast := by
    rw [hfold, hstep.2.2.2.1]
  have hto : (recordFailures (CircuitBreaker.init th timeout hor) k
      (ts ++ [tlast])).recovery_timeout = timeout := by
    rw [hfold, hstep.2.1, hpre.2.1]
    rfl
  constructor
  · intro tq htq
    exact can_execute_open_within _ k tq hopen (by rw [hlf, hto]; exact htq)
  · intro tq
    exact (can_execute_iff_state _ k tq).1

/-- Witness for C3: threshold 3, timeout 60, failures at times 0, 1, 2;
at time 62 (elapsed 60 from the last failure, the boundary) execution
is still refused, and the open state agrees with the state reading. -/
theorem C3_witness :
    (((recordFailures (CircuitBreaker.init 3 60 1) "x.com" ([0, 1] ++ [2])).can_execute
        "x.com" 62).1 = false) ∧
    ((((recordFailures (CircuitBreaker.init 3 60 1) "x.com" ([0, 1] ++ [2])).can_execute
        "x.com" 100).1 = true) ↔
      ((((recordFailures (CircuitBreaker.init 3 60 1) "x.com"
          ([0, 1] ++ [2]))._get_state "x.com" 100).1 = "closed") ∨
       (((recordFailures (CircuitBreaker.init 3 60 1) "x.com"
          ([0, 1] ++ [2]))._get_state "x.com" 100).1 = "half-open"))) := by
  have h := C3_circuit_opens_until_timeout 3 60 1 "x.com" [0, 1] 2 (by norm_num)
    (by norm_num)
  exact ⟨h.1 62 (by norm_num), h.2 100⟩

/-- C3 counterexample: with threshold 1 and `recovery_timeout = 60`, a
failure at time 0 leaves `can_execute` false at time 60, i.e. at
elapsed time exactly `recovery_timeout` it is still false, refuting the
claim's inclusive boundary ("at elapsed time exactly recovery_timeout
it is no longer false"). -/
theorem C3_counterexample :
    (((CircuitBreaker.init 1 60 1).record_failure "d" 0).can_execute "d" 60).1 = false := by
  have hstep := record_failure_fields (CircuitBreaker.init 1 60 1) "d" 0
  have hst : ((CircuitBreaker.init 1 60 1).record_failure "d" 0).state "d" = "open" := by
    rw [hstep.2.2.2.2]
    norm_num [CircuitBreaker.init]
  refine can_execute_open_within _ "d" 60 hst ?_
  rw [hstep.2.2.2.1, hstep.2.1]
  norm_num [CircuitBreaker.init]

/-! ### Claim C4 -/

/-- C4 (code bug): after the recovery timeout elapses, `can_execute`
returns true on the first call (half-open) and, with no intervening
`record_success` or `record_failure`, again on an immediately following
call — the half-open state persists and `half_open_requests` is never
consulted, contradicting the claimed single probe. -/
theorem C4_half_open_probe_not_single :
    ((((CircuitBreaker.init 1 60 1).record_failure "d" 0).can_execute "d" 61).1 = true) ∧
    (((((CircuitBreaker.init 1 60 1).record_failure "d" 0).can_execute "d" 61).2.can_execute
        "d" 61).1 = true) := by
  have hstep := record_failure_fields (CircuitBreaker.init 1 60 1) "d" 0
  have hst : ((CircuitBreaker.init 1 60 1).record_failure "d" 0).state "d" = "open" := by
    rw [hstep.2.2.2.2]
    norm_num [CircuitBreaker.init]
  have hcond : ((CircuitBreaker.init 1 60 1).record_failure "d" 0).state "d" = "open" ∧
      (61 : ℚ) - ((CircuitBreaker.init 1 60 1).record_failure "d" 0).last_failure "d" >
        ((CircuitBreaker.init 1 60 1).record_failure "d" 0).recovery_timeout := by
    refine ⟨hst, ?_⟩
    rw [hstep.2.2.2.1, hstep.2.1]
    norm_num [CircuitBreaker.init]
  have hget1 : (((CircuitBreaker.init 1 60 1).record_failure "d" 0)._get_state "d" 61).1 =
      "half-open" := by
    rw [getState_fst, if_pos hcond]
  have hsnd : (((CircuitBreaker.init 1 60 1).record_failure "d" 0)._get_state "d" 61).2 =
      { (CircuitBreaker.init 1 60 1).record_failure "d" 0 with
        state := updStr ((CircuitBreaker.init 1 60 1).record_failure "d" 0).state "d"
          "half-open" } := by
    rw [getState_snd, if_pos hcond]
  constructor
  · rw [((can_execute_iff_state _ "d" 61).1), hget1]
    right
    rfl
  · rw [(can_execute_iff_state _ "d" 61).2, hsnd]
    set cb2 := { (CircuitBreaker.init 1 60 1).record_failure "d" 0 with
      state := updStr ((CircuitBreaker.init 1 60 1).record_failure "d" 0).state "d"
        "half-open" } with hcb2
    have hst2 : cb2.state "d" = "half-open" := by
      rw [hcb2]
      simp [updStr]
    have hget2 : (cb2._get_state "d" 61).1 = "half-open" := by
      rw [getState_fst,
        if_neg (by rintro ⟨h, -⟩; rw [hst2] at h; exact absurd h (by decide)), hst2]
    rw [(can_execute_iff_state cb2 "d" 61).1, hget2]
    right
    rfl

/-! ### LRU cache lemmas -/

/-- A list already below capacity is not evicted from. -/
theorem evictToCap_of_lt {α : Type} {m : Nat} {l : List (String × α × ℚ)}
    (h : l.length < m) : evictToCap m l = some l := by
  match l with
  | [] =>
    have hm0 : ¬ (m = 0) := by
      simp only [List.length_nil] at h
      omega
    show (if m = 0 then none else some ([] : List (String × α × ℚ))) = some []
    rw [if_neg hm0]
  | e :: tl =>
    show (if (e :: tl).length ≥ m then evictToCap m tl else some (e :: tl)) = some (e :: tl)
    rw [if_neg (by omega)]

/-- With positive capacity, eviction always succeeds, yields a suffix
of the input, and leaves strictly fewer than `m` entries. -/
theorem evictToCap_some {α : Type} (m : Nat) (hm : 1 ≤ m) :
    ∀ l : List (String × α × ℚ),
    ∃ l', evictToCap m l = some l' ∧ l'.length < m ∧ ∃ n, l' = l.drop n := by
  intro l
  induction l with
  | nil =>
    refine ⟨[], ?_, by simp only [List.length_nil]; omega, 0, rfl⟩
    exact evictToCap_of_lt (by simp only [List.length_nil]; omega)
  | cons e tl ih =>
    by_cases h : (e :: tl).length ≥ m
    · obtain ⟨l', h1, h2, n, h3⟩ := ih
      refine ⟨l', ?_, h2, n + 1, by simp [h3]⟩
      show (if (e :: tl).length ≥ m then evictToCap m tl else some (e :: tl)) = some l'
      rw [if_pos h]
      exact h1
    · exact ⟨e :: tl, evictToCap_of_lt (by omega), by omega, 0, rfl⟩

/-- Assigning a fresh key appends it at the most-recently-used end. -/
theorem odAssign_fresh {α : Type} {l : List (String × α × ℚ)} {k : String}
    (v : α × ℚ) (h : k ∉ l.map Prod.fst) : odAssign l k v = l ++ [(k, v)] := by
  induction l with
  | nil => rfl
  | cons e tl ih =>
    simp only [List.map_cons, List.mem_cons, not_or] at h
    unfold odAssign
    rw [if_neg (fun he => h.1 he.symm)]
    rw [ih h.2]
    rfl

/-- Assigning an existing key preserves the key sequence (no move to
the most-recently-used end). -/
theorem odAssign_mem_keys {α : Type} {l : List (String × α × ℚ)} {k : String}
    (v : α × ℚ) (h : k ∈ l.map Prod.fst) :
    (odAssign l k v).map Prod.fst = l.map Prod.fst := by
  induction l with
  | nil => simp at h
  | cons e tl ih =>
    unfold odAssign
    by_cases he : e.1 = k
    · rw [if_pos he]
      simp [he]
    · rw [if_neg he]
      simp only [List.map_cons, List.mem_cons] at h ⊢
      rcases h with h | h
      · exact absurd h.symm he
      · rw [ih h]

/-- Assignment grows the dict by at most one entry. -/
theorem odAssign_length_le {α : Type} (l : List (String × α × ℚ)) (k : String)
    (v : α × ℚ) : (odAssign l k v).length ≤ l.length + 1 := by
  induction l with
  | nil => simp [odAssign]
  | cons e tl ih =>
    unfold odAssign
    by_cases he : e.1 = k
    · rw [if_pos he]
      simp
    · rw [if_neg he]
      simp only [List.length_cons]
      omega

/-- Erasure never grows the dict. -/
theorem odErase_length_le {α : Type} (l : List (String × α × ℚ)) (k : String) :
    (odErase l k).length ≤ l.length := by
  induction l with
  | nil => simp [odErase]
  | cons e tl ih =>
    unfold odErase
    by_cases he : e.1 = k
    · rw [if_pos he]
      simp
    · rw [if_neg he]
      simp only [List.length_cons]
      omega

/-- Erasing a key that `odFind` locates removes exactly one entry. -/
theorem odErase_length_of_find {α : Type} {l : List (String × α × ℚ)} {k : String}
    {p : α × ℚ} (h : odFind l k = some p) : (odErase l k).length + 1 = l.length := by
  induction l with
  | nil => simp [odFind] at h
  | cons e tl ih =>
    unfold odFind at h
    unfold odErase
    by_cases he : e.1 = k
    · rw [if_pos he]
      simp
    · rw [if_neg he]
      rw [if_neg he] at h
      have := ih h
      simp only [List.length_cons]
      omega

/-- One cache operation preserves the configuration and the size
bound. -/
theorem runCacheOp_inv {α : Type} (c : LRUCache α) (op : CacheOp α)
    (hm : 1 ≤ c.max_size) (hl : c.cache.length ≤ c.max_size) :
    (runCacheOp c op).max_size = c.max_size ∧
    (runCacheOp c op).cache.length ≤ c.max_size := by
  match op with
  | .clear => exact ⟨rfl, by simp [runCacheOp]⟩
  | .get url now =>
    have hrun : runCacheOp c (CacheOp.get url now) = (c.get url now).2 := rfl
    rw [hrun]
    unfold LRUCache.get
    rcases hf : odFind c.cache url with _ | ⟨v, ts⟩
    · exact ⟨rfl, hl⟩
    · by_cases hex : now - ts > c.ttl_seconds
      · constructor
        · simp only [if_pos hex]
        · simp only [if_pos hex]
          exact le_trans (odErase_length_le _ _) hl
      · constructor
        · simp only [if_neg hex]
        · simp only [if_neg hex]
          simp only [List.length_append, List.length_cons, List.length_nil]
          have := odErase_length_of_find hf
          omega
  | .set url v t =>
    obtain ⟨l', h1, h2, -⟩ := evictToCap_some c.max_size hm c.cache
    have hset : c.set url v t = some { c with cache := odAssign l' url (v, t) } := by
      unfold LRUCache.set
      rw [h1]
      rfl
    have hrun : runCacheOp c (CacheOp.set url v t) = (c.set url v t).getD c := rfl
    rw [hrun, hset]
    refine ⟨rfl, ?_⟩
    have := odAssign_length_le l' url (v, t)
    simp only [Option.getD_some]
    omega

/-- The size bound is preserved by any sequence of operations. -/
theorem foldCacheOps_inv {α : Type} :
    ∀ (ops : List (CacheOp α)) (c : LRUCache α), 1 ≤ c.max_size →
    c.cache.length ≤ c.max_size →
    (ops.foldl runCacheOp c).max_size = c.max_size ∧
    (ops.foldl runCacheOp c).cache.length ≤ c.max_size := by
  intro ops
  induction ops with
  | nil => exact fun c _ h => ⟨rfl, h⟩
  | cons op rest ih =>
    intro c hm hl
    have hstep := runCacheOp_inv c op hm hl
    have hrec := ih (runCacheOp c op) (by omega) (by omega)
    simp only [List.foldl_cons]
    exact ⟨hrec.1.trans hstep.1, by have := hrec.2; omega⟩

/-! ### Claim C6 -/

/-- C6 (corrected): the entry count never exceeds `max_size` under any
operation sequence; `set` first runs the eviction loop (so a fresh key
written at capacity evicts exactly the least-recently-used entry) and a
fresh key is placed at the most-recently-used position; but a key that
is already present is updated in place and keeps its old position
(CPython `OrderedDict` assignment does not move to the end). -/
theorem C6_lru_cache_size_and_eviction {α : Type} (c : LRUCache α)
    (ops : List (CacheOp α)) (u : String) (v : α) (t : ℚ)
    (hm : 1 ≤ c.max_size) (hl : c.cache.length ≤ c.max_size) :
    ((ops.foldl runCacheOp c).cache.length ≤ c.max_size) ∧
    (c.cache.length = c.max_size → u ∉ c.cache.map Prod.fst →
      c.set u v t = some { c with cache := c.cache.tail ++ [(u, v, t)] }) ∧
    (c.cache.length < c.max_size → u ∉ c.cache.map Prod.fst →
      c.set u v t = some { c with cache := c.cache ++ [(u, v, t)] }) ∧
    (c.cache.length < c.max_size → u ∈ c.cache.map Prod.fst →
      ∃ c', c.set u v t = some c' ∧
        c'.cache.map Prod.fst = c.cache.map Prod.fst) := by
  refine ⟨(foldCacheOps_inv ops c hm hl).2, ?_, ?_, ?_⟩
  · intro hfull hfresh
    match hc : c.cache with
    | [] =>
      rw [hc] at hfull
      simp at hfull
      omega
    | e :: tl =>
      have hev : evictToCap c.max_size (e :: tl) = some tl := by
        have h1 : (e :: tl).length ≥ c.max_size := by
          rw [hc] at hfull
          omega
        show (if (e :: tl).length ≥ c.max_size then evictToCap c.max_size tl
          else some (e :: tl)) = some tl
        rw [if_pos h1]
        refine evictToCap_of_lt ?_
        rw [hc] at hfull
        simp only [List.length_cons] at hfull
        omega
      unfold LRUCache.set
      rw [hc] at hfresh ⊢
      rw [hev]
      have hfr : odAssign tl u (v, t) = tl ++ [(u, v, t)] := by
        refine odAssign_fresh _ (fun hmem => hfresh ?_)
        simp only [List.map_cons, List.mem_cons]
        exact Or.inr hmem
      show some ({ c with cache := odAssign tl u (v, t) } : LRUCache α) =
        some { c with cache := (e :: tl).tail ++ [(u, v, t)] }
      rw [hfr]
      rfl
  · intro hlt hfresh
    unfold LRUCache.set
    rw [evictToCap_of_lt hlt]
    show some ({ c with cache := odAssign c.cache u (v, t) } : LRUCache α) =
      some { c with cache := c.cache ++ [(u, v, t)] }
    rw [odAssign_fresh _ hfresh]
  · intro hlt hmem
    refine ⟨{ c with cache := odAssign c.cache u (v, t) }, ?_, ?_⟩
    · unfold LRUCache.set
      rw [evictToCap_of_lt hlt]
      rfl
    · exact odAssign_mem_keys _ hmem

/-- Witness for C6: a cache of capacity 2 holding x (oldest) and y; a
fresh set of z evicts exactly x and appends z at the MRU end. -/
theorem C6_witness :
    (⟨2, 100, [("x", 1, 0), ("y", 2, 0)]⟩ : LRUCache Nat).set "z" 5 7 =
      some ⟨2, 100, [("y", 2, 0), ("z", 5, 7)]⟩ :=
  (C6_lru_cache_size_and_eviction (⟨2, 100, [("x", 1, 0), ("y", 2, 0)]⟩ : LRUCache Nat)
    [] "z" 5 7 (by norm_num) (by norm_num)).2.1 (by norm_num) (by decide)

/-- C6 counterexample: capacity 3, insert a then b, then set a again;
the written key a stays at the least-recently-used front instead of
moving to the most-recently-used end, refuting "places the written
entry at the most-recently-used position, including when the key was
already present". -/
theorem C6_counterexample :
    (([CacheOp.set "a" 1 0, CacheOp.set "b" 2 1, CacheOp.set "a" 3 2].foldl runCacheOp
      (⟨3, 100, []⟩ : LRUCache Nat)).cache.map Prod.fst = ["a", "b"]) ∧
    (["a", "b"].getLast? ≠ some "a") := by
  refine ⟨rfl, by decide⟩

/-! ### Storage lemmas -/

/-- Membership in a set-like insertion. -/
theorem mem_insertKey {l : List String} {k' k : String} :
    k ∈ insertKey l k' ↔ (k ∈ l ∨ k = k') := by
  unfold insertKey
  by_cases h : k' ∈ l
  · rw [if_pos h]
    constructor
    · exact Or.inl
    · rintro (hk | hk)
      · exact hk
      · rw [hk]; exact h
  · rw [if_neg h]
    simp

/-! ### Claim C2 -/

/-- C2 (corrected): `save_job` mutates the in-process seen-set only
after the durable write succeeds — on a failed write the whole storage
state is unchanged, and any key newly present in the cache is durably
written.  (The batch path violates the original claim; see the
counterexample.) -/
theorem C2_save_job_cache_only_after_write (js : JobStorage) (job : JobData)
    (writeOk : Bool) (k : String) :
    ((js.save_job job false).2 = js) ∧
    (k ∈ (js.save_job job writeOk).2.seen_cache →
      k ∈ js.seen_cache ∨ k ∈ (js.save_job job writeOk).2.durable) := by
  constructor
  · unfold JobStorage.save_job
    rcases job.url with _ | u
    · rfl
    · rfl
  · rcases hurl : job.url with _ | u
    · have hs : js.save_job job writeOk = (.error .validation, js) := by
        unfold JobStorage.save_job
        rw [hurl]
      rw [hs]
      exact Or.inl
    · match writeOk with
      | false =>
        have hs : js.save_job job false = (.error .storageFailure, js) := by
          unfold JobStorage.save_job
          rw [hurl]
          rfl
        rw [hs]
        exact Or.inl
      | true =>
        have hs : js.save_job job true = (.ok (_get_url_hash u),
            { js with durable := insertKey js.durable (_get_url_hash u),
                      seen_cache := insertKey js.seen_cache (_get_url_hash u) }) := by
          unfold JobStorage.save_job
          rw [hurl]
          rfl
        rw [hs]
        intro hk
        simp only at hk ⊢
        rw [mem_insertKey] at hk
        rcases hk with hk | hk
        · exact Or.inl hk
        · refine Or.inr ?_
          rw [mem_insertKey]
          exact Or.inr hk

/-- Witness for C2: a failing durable write leaves the state unchanged,
and after a successful write the cached key is durably present. -/
theorem C2_witness :
    (((JobStorage.mk [] [] true).save_job ⟨some "http://a.com/x"⟩ false).2 =
      JobStorage.mk [] [] true) ∧
    (_get_url_hash "http://a.com/x" ∈
        ((JobStorage.mk [] [] true).save_job ⟨some "http://a.com/x"⟩ true).2.seen_cache →
      _get_url_hash "http://a.com/x" ∈ ([] : List String) ∨
      _get_url_hash "http://a.com/x" ∈
        ((JobStorage.mk [] [] true).save_job ⟨some "http://a.com/x"⟩ true).2.durable) :=
  ⟨(C2_save_job_cache_only_after_write (JobStorage.mk [] [] true)
      ⟨some "http://a.com/x"⟩ false (_get_url_hash "http://a.com/x")).1,
   (C2_save_job_cache_only_after_write (JobStorage.mk [] [] true)
      ⟨some "http://a.com/x"⟩ true (_get_url_hash "http://a.com/x")).2⟩

/-- C2 counterexample: `save_jobs_batch` adds the hash to `_seen_cache`
before the batch commit; when the commit fails the method raises with
the key cached but not durably written, refuting the claim for the
batch path. -/
theorem C2_counterexample :
    ((JobStorage.mk [] [] true).save_jobs_batch [⟨some "http://a.com/x"⟩]
        (fun _ => false)).1 = .error .storageFailure ∧
    ((JobStorage.mk [] [] true).save_jobs_batch [⟨some "http://a.com/x"⟩]
        (fun _ => false)).2.seen_cache = [_get_url_hash "http://a.com/x"] ∧
    ((JobStorage.mk [] [] true).save_jobs_batch [⟨some "http://a.com/x"⟩]
        (fun _ => false)).2.durable = [] := by
  refine ⟨rfl, rfl, rfl⟩

/-! ### Claim C9 -/

/-- C9 (corrected): `extract_domain` returns the authority component
exactly as parsed — not lower-cased — when it is nonempty, and falls
back to the raw input otherwise; consequently it is nonempty whenever
the input is nonempty (the empty input returns the empty string). -/
theorem C9_extract_domain_fallback (u : String) (hne : u ≠ "") :
    (extract_domain u ≠ "") ∧
    ((urlsplitL u.data).netloc ≠ [] →
      extract_domain u = ⟨(urlsplitL u.data).netloc⟩) ∧
    ((urlsplitL u.data).netloc = [] → extract_domain u = u) := by
  unfold extract_domain
  by_cases h : (urlsplitL u.data).netloc = []
  · rw [if_neg (by simp [h])]
    exact ⟨hne, fun hc => absurd h hc, fun _ => rfl⟩
  · rw [if_pos (by simp [h])]
    refine ⟨?_, fun _ => rfl, fun hc => absurd hc h⟩
    intro he
    exact h (congrArg String.data he)

/-- Witness for C9 on a URL with an authority and on one without. -/
theorem C9_witness :
    (extract_domain "http://Ex.com/a" ≠ "") ∧
    (extract_domain "nota url" = "nota url") :=
  ⟨(C9_extract_domain_fallback "http://Ex.com/a" (by decide)).1,
   (C9_extract_domain_fallback "nota url" (by decide)).2.2 (by decide)⟩

/-- C9 counterexample: the authority is returned with its case
preserved, not lower-cased, and the empty input yields the empty
string, refuting "returns the lowercased authority component ... is
never the empty string". -/
theorem C9_counterexample :
    (extract_domain "http://Ex.com/a" = "Ex.com") ∧
    (String.mk ((urlsplitL ("http://Ex.com/a").data).netloc.map lowerChar) = "ex.com") ∧
    ("Ex.com" ≠ "ex.com") ∧
    (extract_domain "" = "") := by
  refine ⟨rfl, rfl, by decide, rfl⟩

/-! ### Claim C1 -/

/-- C1 (corrected): two URLs that agree after the *code's* key
canonicalization (lower-case, strip whitespace, strip trailing slashes)
map to the same dedup document id, and `is_job_seen` holds for the
second immediately after a successful `save_job` of the first.  (URLs
that merely normalize identically under `normalize_url` need not — see
the counterexample.) -/
theorem C1_canonical_key_dedup (u1 u2 : String)
    (h : hashCanon u1.data = hashCanon u2.data) (js : JobStorage) :
    (_get_url_hash u1 = _get_url_hash u2) ∧
    (((js.save_job ⟨some u1⟩ true).2.is_job_seen u2 true).1 = true) := by
  have hkey : _get_url_hash u1 = _get_url_hash u2 := by
    unfold _get_url_hash
    rw [h]
  refine ⟨hkey, ?_⟩
  have hsave : (js.save_job ⟨some u1⟩ true).2 =
      { js with durable := insertKey js.durable (_get_url_hash u1),
                seen_cache := insertKey js.seen_cache (_get_url_hash u1) } := rfl
  rw [hsave]
  unfold JobStorage.is_job_seen JobStorage._load_seen_cache
  by_cases hload : js.cache_loaded
  · rw [if_pos hload]
    simp only [decide_eq_true_eq]
    rw [← hkey, mem_insertKey]
    exact Or.inr rfl
  · rw [if_neg hload, if_pos rfl]
    simp only [decide_eq_true_eq]
    rw [← hkey, mem_insertKey]
    exact Or.inr rfl

/-- Witness for C1 on the spec's example pair `http://Ex.com/a/` and
`http://ex.com/a`, which canonicalize identically. -/
theorem C1_witness :
    (_get_url_hash "http://Ex.com/a/" = _get_url_hash "http://ex.com/a") ∧
    ((((JobStorage.mk [] [] true).save_job ⟨some "http://Ex.com/a/"⟩ true).2.is_job_seen
      "http://ex.com/a" true).1 = true) :=
  C1_canonical_key_dedup "http://Ex.com/a/" "http://ex.com/a" (by decide)
    (JobStorage.mk [] [] true)

/-- C1 counterexample: `http://ex.com/a#f` and `http://ex.com/a`
normalize identically under `normalize_url` (the fragment is dropped)
yet get different dedup keys, and `is_job_seen` of the second is false
right after recording the first. -/
theorem C1_counterexample :
    (normalize_url "http://ex.com/a#f" = normalize_url "http://ex.com/a") ∧
    (_get_url_hash "http://ex.com/a#f" ≠ _get_url_hash "http://ex.com/a") ∧
    ((((JobStorage.mk [] [] true).save_job ⟨some "http://ex.com/a#f"⟩ true).2.is_job_seen
      "http://ex.com/a" true).1 = false) := by
  refine ⟨rfl, by decide, rfl⟩

/-! ### Character class lemmas for the URL model -/

/-- Lower-casing either fixes a character or lands in the lowercase
letters. -/
theorem lowerChar_eq_or (c : Char) : lowerChar c = c ∨ lowerChar c ∈ lcChars := by
  by_cases hc : c ∈ ucChars
  · right
    simp only [ucChars] at hc
    fin_cases hc <;> decide
  · left
    simp only [ucChars, List.mem_cons, List.not_mem_nil, or_false, not_or] at hc
    obtain ⟨h1, h2, h3, h4, h5, h6, h7, h8, h9, h10, h11, h12, h13, h14, h15, h16,
      h17, h18, h19, h20, h21, h22, h23, h24, h25, h26⟩ := hc
    simp [lowerChar, h1, h2, h3, h4, h5, h6, h7, h8, h9, h10, h11, h12, h13, h14,
      h15, h16, h17, h18, h19, h20, h21, h22, h23, h24, h25, h26]

/-- Lowercase letters are fixed points of `lowerChar`. -/
theorem lowerChar_lc_fix : ∀ c ∈ lcChars, lowerChar c = c := by
  intro c hc
  simp only [lcChars] at hc
  fin_cases hc <;> rfl

/-- Lower-casing is idempotent. -/
theorem lowerChar_idem (c : Char) : lowerChar (lowerChar c) = lowerChar c := by
  rcases lowerChar_eq_or c with h | h
  · rw [h, h]
  · exact lowerChar_lc_fix _ h

/-- A character whose lower-case form is not a lowercase letter was
already that form. -/
theorem lowerChar_eq_of_not_lc {c d : Char} (h : lowerChar c = d) (hd : d ∉ lcChars) :
    c = d := by
  rcases lowerChar_eq_or c with h' | h'
  · rw [← h', h]
  · rw [h] at h'
    exact absurd h' hd

/-- Lower-casing a list twice equals lower-casing once. -/
theorem map_lowerChar_idem (l : List Char) :
    (l.map lowerChar).map lowerChar = l.map lowerChar := by
  rw [List.map_map]
  exact List.map_congr_left fun c _ => lowerChar_idem c

/-- A character outside the lowercase letters that is absent from a
list is also absent from its lower-cased form. -/
theorem not_mem_map_lowerChar {d : Char} (hd : d ∉ lcChars) {l : List Char}
    (h : d ∉ l) : d ∉ l.map lowerChar := by
  intro hm
  obtain ⟨c, hc, hcd⟩ := List.mem_map.mp hm
  rw [lowerChar_eq_of_not_lc hcd hd] at hc
  exact h hc

/-- Lower-casing preserves scheme characters. -/
theorem isSchemeChar_lower {c : Char} (h : isSchemeChar c = true) :
    isSchemeChar (lowerChar c) = true := by
  rcases lowerChar_eq_or c with h' | h'
  · rw [h']
    exact h
  · revert h'
    generalize lowerChar c = d
    intro h'
    simp only [lcChars] at h'
    fin_cases h' <;> decide

/-- Lower-casing preserves ASCII letters. -/
theorem isAsciiAlpha_lower {c : Char} (h : isAsciiAlpha c = true) :
    isAsciiAlpha (lowerChar c) = true := by
  rcases lowerChar_eq_or c with h' | h'
  · rw [h']
    exact h
  · revert h'
    generalize lowerChar c = d
    intro h'
    simp only [lcChars] at h'
    fin_cases h' <;> decide

/-- Lower-casing preserves non-delimiters. -/
theorem isNetlocDelim_lower {c : Char} (h : isNetlocDelim c = false) :
    isNetlocDelim (lowerChar c) = false := by
  rcases lowerChar_eq_or c with h' | h'
  · rw [h']
    exact h
  · revert h'
    generalize lowerChar c = d
    intro h'
    simp only [lcChars] at h'
    fin_cases h' <;> decide

/-- A scheme character is not a colon. -/
theorem schemeChar_ne_colon {c : Char} (h : isSchemeChar c = true) : c ≠ ':' := by
  intro he
  rw [he] at h
  exact absurd h (by decide)

/-- A scheme character is not a question mark. -/
theorem schemeChar_ne_qmark {c : Char} (h : isSchemeChar c = true) : c ≠ '?' := by
  intro he
  rw [he] at h
  exact absurd h (by decide)

/-! ### More `splitOnFirst` lemmas -/

/-- Lists without the delimiter are not split. -/
theorem splitOnFirst_of_not_mem {c : Char} {l : List Char} (h : c ∉ l) :
    splitOnFirst c l = none := by
  induction l with
  | nil => rfl
  | cons x xs ih =>
    simp only [List.mem_cons, not_or] at h
    simp only [splitOnFirst, if_neg (Ne.symm h.1), ih h.2]

/-- Splitting at an explicit first occurrence. -/
theorem splitOnFirst_append {c : Char} {a b : List Char} (h : c ∉ a) :
    splitOnFirst c (a ++ c :: b) = some (a, b) := by
  induction a with
  | nil => simp [splitOnFirst]
  | cons x xs ih =>
    simp only [List.mem_cons, not_or] at h
    simp only [List.cons_append, splitOnFirst, if_neg (Ne.symm h.1)]
    rw [show (xs.append (c :: b)) = xs ++ c :: b from rfl, ih h.2]

/-- What a successful split tells us. -/
theorem splitOnFirst_eq_some {c : Char} {l a b : List Char}
    (h : splitOnFirst c l = some (a, b)) : l = a ++ c :: b ∧ c ∉ a := by
  induction l generalizing a with
  | nil => simp [splitOnFirst] at h
  | cons x xs ih =>
    simp only [splitOnFirst] at h
    split at h
    · cases h
      simp_all
    · revert h
      split
      · intro h; cases h
      · rename_i hne _ a' b' heq
        intro h
        cases h
        obtain ⟨hl, hn⟩ := ih heq
        subst hl
        refine ⟨rfl, ?_⟩
        simp only [List.mem_cons, not_or]
        exact ⟨Ne.symm hne, hn⟩

/-- Splitting skips over a delimiter-free prefix. -/
theorem splitOnFirst_append_left {c : Char} {a : List Char} (l : List Char)
    (h : c ∉ a) :
    splitOnFirst c (a ++ l) =
      (splitOnFirst c l).map (fun p => (a ++ p.1, p.2)) := by
  induction a with
  | nil =>
    simp only [List.nil_append]
    cases splitOnFirst c l with
    | none => rfl
    | some p => simp
  | cons x xs ih =>
    simp only [List.mem_cons, not_or] at h
    simp only [List.cons_append, splitOnFirst, if_neg (Ne.symm h.1)]
    rw [show (xs.append l) = xs ++ l from rfl, ih h.2]
    cases splitOnFirst c l with
    | none => rfl
    | some p => rfl

/-- First-occurrence decomposition of a member. -/
theorem exists_first_split {c : Char} {l : List Char} (h : c ∈ l) :
    ∃ a b, l = a ++ c :: b ∧ c ∉ a := by
  induction l with
  | nil => simp at h
  | cons x xs ih =>
    by_cases hx : x = c
    · exact ⟨[], xs, by rw [hx]; rfl, by simp⟩
    · rcases List.mem_cons.mp h with h' | h'
      · exact absurd h'.symm hx
      · obtain ⟨a, b, h1, h2⟩ := ih h'
        exact ⟨x :: a, b, by rw [h1]; rfl,
          by simp only [List.mem_cons, not_or]; exact ⟨Ne.symm hx, h2⟩⟩

/-! ### takeWhile / dropWhile lemmas -/

/-- Elements of a `takeWhile` satisfy the predicate. -/
theorem takeWhile_pred {p : Char → Bool} : ∀ {l : List Char}, ∀ x ∈ l.takeWhile p,
    p x = true := by
  intro l
  induction l with
  | nil => simp
  | cons y ys ih =>
    intro x hx
    rw [List.takeWhile_cons] at hx
    by_cases hy : p y = true
    · rw [if_pos hy] at hx
      rcases List.mem_cons.mp hx with h | h
      · rw [h]; exact hy
      · exact ih x h
    · rw [if_neg hy] at hx
      simp at hx

/-- `takeWhile` over a satisfied prefix followed by a blocked list. -/
theorem takeWhile_append_blocked {p : Char → Bool} :
    ∀ {a : List Char} (b : List Char), (∀ x ∈ a, p x = true) →
    (b = [] ∨ ∃ y t, b = y :: t ∧ p y = false) →
    (a ++ b).takeWhile p = a ∧ (a ++ b).dropWhile p = b := by
  intro a
  induction a with
  | nil =>
    intro b _ hb
    rcases hb with hb | ⟨y, t, hb, hy⟩
    · subst hb
      simp
    · subst hb
      simp [List.takeWhile_cons, List.dropWhile_cons, hy]
  | cons x xs ih =>
    intro b ha hb
    have hx : p x = true := ha x (by simp)
    have := ih b (fun y hy => ha y (by simp [hy])) hb
    refine ⟨?_, ?_⟩
    · rw [List.cons_append, List.takeWhile_cons, if_pos hx, this.1]
    · rw [List.cons_append, List.dropWhile_cons, if_pos hx, this.2]

/-- The head of a `dropWhile` result falsifies the predicate. -/
theorem dropWhile_head_false {p : Char → Bool} {l : List Char} :
    ∀ {y : Char} {t : List Char}, l.dropWhile p = y :: t → p y = false := by
  induction l with
  | nil => intro y t h; simp at h
  | cons x xs ih =>
    intro y t h
    rw [List.dropWhile_cons] at h
    by_cases hx : p x = true
    · rw [if_pos hx] at h
      exact ih h
    · rw [if_neg hx] at h
      cases h
      exact Bool.eq_false_iff.mpr hx

/-- `dropWhile` is idempotent. -/
theorem dropWhile_idem (p : Char → Bool) (l : List Char) :
    (l.dropWhile p).dropWhile p = l.dropWhile p := by
  rcases hd : l.dropWhile p with _ | ⟨y, t⟩
  · rfl
  · rw [List.dropWhile_cons, if_neg (by rw [dropWhile_head_false hd]; simp)]

/-! ### `rstripSlash` lemmas -/

/-- The stripped list is the original minus a run of trailing slashes. -/
theorem rstripSlash_decomp (l : List Char) :
    ∃ t, l = rstripSlash l ++ t ∧ ∀ x ∈ t, x = '/' := by
  refine ⟨(l.reverse.takeWhile (fun c => c = '/')).reverse, ?_, ?_⟩
  · have h1 : l.reverse.takeWhile (fun c => decide (c = '/')) ++
        l.reverse.dropWhile (fun c => decide (c = '/')) = l.reverse :=
      List.takeWhile_append_dropWhile _ _
    have h2 := congrArg List.reverse h1
    rw [List.reverse_append, List.reverse_reverse] at h2
    exact h2.symm
  · intro x hx
    rw [List.mem_reverse] at hx
    have := takeWhile_pred x hx
    simpa using this

/-- Stripping is idempotent. -/
theorem rstripSlash_idem (l : List Char) :
    rstripSlash (rstripSlash l) = rstripSlash l := by
  unfold rstripSlash
  rw [List.reverse_reverse, dropWhile_idem]

/-- A list whose last element is not a slash is already stripped. -/
theorem rstripSlash_of_last_ne {l : List Char} {x : Char} {t : List Char}
    (h : l = t ++ [x]) (hx : x ≠ '/') : rstripSlash l = l := by
  subst h
  unfold rstripSlash
  rw [List.reverse_append]
  simp only [List.reverse_cons, List.reverse_nil, List.nil_append, List.cons_append,
    List.dropWhile_cons]
  rw [if_neg (by simpa using hx)]
  simp

/-- The stripped list never ends in a slash: it is empty or ends in a
non-slash character. -/
theorem rstripSlash_last (l : List Char) :
    rstripSlash l = [] ∨ ∃ t x, rstripSlash l = t ++ [x] ∧ x ≠ '/' := by
  rcases hd : l.reverse.dropWhile (fun c => c = '/') with _ | ⟨y, t⟩
  · left
    unfold rstripSlash
    rw [hd]
    rfl
  · right
    refine ⟨t.reverse, y, ?_, ?_⟩
    · unfold rstripSlash
      rw [hd]
      simp
    · have := dropWhile_head_false hd
      simpa using this

/-- The stripped form is never the singleton slash. -/
theorem rstripSlash_ne_slash (l : List Char) : rstripSlash l ≠ ['/'] := by
  intro h
  rcases rstripSlash_last l with h' | ⟨t, x, h', hx⟩
  · rw [h] at h'
    cases h'
  · rw [h] at h'
    have hx' : x = '/' := by
      cases t with
      | nil => simpa using h'.symm
      | cons a b =>
        simp only [List.cons_append] at h'
        simp at h'
    exact hx hx'

/-! ### `normalizePath` lemmas -/

/-- The normalized path is a prefix of the path. -/
theorem normalizePath_decomp (p : List Char) : ∃ t, p = normalizePath p ++ t := by
  unfold normalizePath
  by_cases h : p = ['/']
  · rw [if_pos h]
    exact ⟨[], by simp⟩
  · rw [if_neg h]
    obtain ⟨t, ht, -⟩ := rstripSlash_decomp p
    exact ⟨t, ht⟩

/-- Path normalization is idempotent. -/
theorem normalizePath_idem (p : List Char) :
    normalizePath (normalizePath p) = normalizePath p := by
  unfold normalizePath
  by_cases h : p = ['/']
  · rw [if_pos h, if_pos h]
  · rw [if_neg h, if_neg (rstripSlash_ne_slash p), rstripSlash_idem]

/-- Normalization cannot create a `//` path prefix. -/
theorem normalizePath_take2 {p : List Char} (h : p.take 2 ≠ ['/', '/']) :
    (normalizePath p).take 2 ≠ ['/', '/'] := by
  intro h2
  obtain ⟨t, ht⟩ := normalizePath_decomp p
  apply h
  match hn : normalizePath p, h2 with
  | c1 :: c2 :: t', _ =>
    rw [hn] at ht h2
    simp only [List.take, List.cons.injEq] at h2
    rw [ht, h2.1, h2.2.1]
    rfl

/-- Normalization preserves character absence. -/
theorem normalizePath_not_mem {c : Char} {p : List Char} (h : c ∉ p) :
    c ∉ normalizePath p := by
  obtain ⟨t, ht⟩ := normalizePath_decomp p
  intro hm
  exact h (ht ▸ List.mem_append_left t hm)

/-- A nonempty normalized path starts like the path. -/
theorem normalizePath_head {p : List Char} (h : normalizePath p ≠ []) :
    (normalizePath p).headD ' ' = p.headD ' ' := by
  obtain ⟨t, ht⟩ := normalizePath_decomp p
  match hn : normalizePath p, h with
  | c :: t', _ =>
    rw [hn] at ht
    rw [ht]
    rfl

/-- A normalized path that is not the root never ends in a slash. -/
theorem normalizePath_last {p : List Char} (hne : p ≠ ['/']) :
    normalizePath p = [] ∨
    ∃ t x, normalizePath p = t ++ [x] ∧ x ≠ '/' := by
  unfold normalizePath
  rw [if_neg hne]
  exact rstripSlash_last p

/-! ### Stage lemmas for `urlsplit` -/

/-- A failed split means the delimiter is absent. -/
theorem not_mem_of_splitOnFirst_none {c : Char} {l : List Char}
    (h : splitOnFirst c l = none) : c ∉ l := by
  intro hm
  obtain ⟨a, b, hd, hna⟩ := exists_first_split hm
  rw [hd, splitOnFirst_append hna] at h
  cases h

/-- Fragment splitting without a hash is the identity. -/
theorem splitFragment_no {l : List Char} (h : '#' ∉ l) : splitFragment l = (l, []) := by
  unfold splitFragment
  rw [splitOnFirst_of_not_mem h]

/-- Query splitting without a question mark is the identity. -/
theorem splitQuery_no {l : List Char} (h : '?' ∉ l) : splitQuery l = (l, []) := by
  unfold splitQuery
  rw [splitOnFirst_of_not_mem h]

/-- Query splitting at an explicit first question mark. -/
theorem splitQuery_at {p q : List Char} (h : '?' ∉ p) :
    splitQuery (p ++ '?' :: q) = (p, q) := by
  unfold splitQuery
  rw [splitOnFirst_append h]

/-- The pre-fragment part has no hash and is a prefix. -/
theorem splitFragment_fst (l : List Char) :
    '#' ∉ (splitFragment l).1 ∧ ∃ t, l = (splitFragment l).1 ++ t := by
  unfold splitFragment
  rcases h : splitOnFirst '#' l with _ | ⟨a, b⟩
  · exact ⟨not_mem_of_splitOnFirst_none h, [], by simp⟩
  · obtain ⟨hd, hna⟩ := splitOnFirst_eq_some h
    exact ⟨hna, '#' :: b, hd⟩

/-- The fragment part consists of characters of the input. -/
theorem splitFragment_snd_subset (l : List Char) :
    ∀ x ∈ (splitFragment l).2, x ∈ l := by
  unfold splitFragment
  rcases h : splitOnFirst '#' l with _ | ⟨a, b⟩
  · simp
  · obtain ⟨hd, -⟩ := splitOnFirst_eq_some h
    intro x hx
    rw [hd]
    simp [hx]

/-- The pre-query part has no question mark and is a prefix. -/
theorem splitQuery_fst (l : List Char) :
    '?' ∉ (splitQuery l).1 ∧ ∃ t, l = (splitQuery l).1 ++ t := by
  unfold splitQuery
  rcases h : splitOnFirst '?' l with _ | ⟨a, b⟩
  · exact ⟨not_mem_of_splitOnFirst_none h, [], by simp⟩
  · obtain ⟨hd, hna⟩ := splitOnFirst_eq_some h
    exact ⟨hna, '?' :: b, hd⟩

/-- The query part consists of characters of the input. -/
theorem splitQuery_snd_subset (l : List Char) :
    ∀ x ∈ (splitQuery l).2, x ∈ l := by
  unfold splitQuery
  rcases h : splitOnFirst '?' l with _ | ⟨a, b⟩
  · simp
  · obtain ⟨hd, -⟩ := splitOnFirst_eq_some h
    intro x hx
    rw [hd]
    simp [hx]

/-- Parameter splitting without a semicolon is the identity. -/
theorem splitParams_no_semi {p : List Char} (h : ';' ∉ p) :
    splitParams p = (p, []) := by
  unfold splitParams
  rw [if_neg h]

/-- Characters of the post-scheme remainder come from the input. -/
theorem splitScheme_snd_subset (u : List Char) :
    ∀ x ∈ (splitScheme u).2, x ∈ u := by
  unfold splitScheme
  rcases h : splitOnFirst ':' u with _ | ⟨pre, rest⟩
  · exact fun x hx => hx
  · obtain ⟨hd, -⟩ := splitOnFirst_eq_some h
    intro x hx
    by_cases hc : pre ≠ [] ∧ isAsciiAlpha (pre.headD ' ') = true ∧
      pre.all isSchemeChar = true
    · simp only [if_pos hc] at hx
      rw [hd]
      simp only [List.mem_append, List.mem_cons]
      right
      right
      exact hx
    · simp only [if_neg hc] at hx
      exact hx

/-- Characters of the post-netloc remainder come from the input. -/
theorem netlocRest_subset (r : List Char) : ∀ x ∈ netlocRest r, x ∈ r := by
  unfold netlocRest
  by_cases h : r.take 2 = ['/', '/']
  · rw [if_pos h]
    intro x hx
    have h1 : x ∈ r.drop 2 := by
      have := List.takeWhile_append_dropWhile
        (p := fun c => !(isNetlocDelim c)) (l := r.drop 2)
      rw [← this]
      exact List.mem_append_right _ hx
    exact List.mem_of_mem_drop h1
  · rw [if_neg h]
    exact fun x hx => hx

/-- Characters of the parsed path come from the input URL. -/
theorem path_subset (u : List Char) : ∀ x ∈ (urlsplitL u).path, x ∈ u := by
  intro x hx
  have h1 : (urlsplitL u).path =
      (splitQuery (splitFragment (netlocRest (splitScheme u).2)).1).1 := rfl
  rw [h1] at hx
  obtain ⟨-, tq, hq⟩ := splitQuery_fst (splitFragment (netlocRest (splitScheme u).2)).1
  have hx2 : x ∈ (splitFragment (netlocRest (splitScheme u).2)).1 := by
    rw [hq]
    exact List.mem_append_left _ hx
  obtain ⟨-, tf, hf⟩ := splitFragment_fst (netlocRest (splitScheme u).2)
  have hx3 : x ∈ netlocRest (splitScheme u).2 := by
    rw [hf]
    exact List.mem_append_left _ hx2
  exact splitScheme_snd_subset u x (netlocRest_subset _ x hx3)

/-- The parsed path contains no hash and no question mark. -/
theorem path_no_specials (u : List Char) :
    '#' ∉ (urlsplitL u).path ∧ '?' ∉ (urlsplitL u).path := by
  have h1 : (urlsplitL u).path =
      (splitQuery (splitFragment (netlocRest (splitScheme u).2)).1).1 := rfl
  constructor
  · rw [h1]
    intro hx
    obtain ⟨hnof, -⟩ := splitFragment_fst (netlocRest (splitScheme u).2)
    obtain ⟨-, tq, hq⟩ := splitQuery_fst (splitFragment (netlocRest (splitScheme u).2)).1
    exact hnof (hq ▸ List.mem_append_left _ hx)
  · rw [h1]
    exact (splitQuery_fst _).1

/-- The parsed query contains no hash. -/
theorem query_no_hash (u : List Char) : '#' ∉ (urlsplitL u).query := by
  have h1 : (urlsplitL u).query =
      (splitQuery (splitFragment (netlocRest (splitScheme u).2)).1).2 := rfl
  rw [h1]
  intro hx
  obtain ⟨hnof, -⟩ := splitFragment_fst (netlocRest (splitScheme u).2)
  exact hnof (splitQuery_snd_subset _ _ hx)

/-- The parsed authority contains no delimiter. -/
theorem netloc_delim_free (u : List Char) :
    ∀ x ∈ (urlsplitL u).netloc, isNetlocDelim x = false := by
  have h1 : (urlsplitL u).netloc = netlocPart (splitScheme u).2 := rfl
  rw [h1]
  unfold netlocPart
  by_cases h : (splitScheme u).2.take 2 = ['/', '/']
  · rw [if_pos h]
    intro x hx
    have := takeWhile_pred x hx
    simpa using this
  · rw [if_neg h]
    simp

/-! ### Scheme round-trip lemmas -/

/-- Case analysis on scheme detection. -/
theorem splitScheme_cases (u : List Char) :
    (splitScheme u = ([], u)) ∨
    (∃ pre rest, splitOnFirst ':' u = some (pre, rest) ∧ pre ≠ [] ∧
      isAsciiAlpha (pre.headD ' ') = true ∧ pre.all isSchemeChar = true ∧
      splitScheme u = (pre.map lowerChar, rest)) := by
  unfold splitScheme
  rcases h : splitOnFirst ':' u with _ | ⟨pre, rest⟩
  · left
    rfl
  · by_cases hc : pre ≠ [] ∧ isAsciiAlpha (pre.headD ' ') = true ∧
      pre.all isSchemeChar = true
    · right
      exact ⟨pre, rest, rfl, hc.1, hc.2.1, hc.2.2, by simp only [if_pos hc]⟩
    · left
      simp only [if_neg hc]

/-- Invariants of a parsed scheme: when nonempty it is made of scheme
characters, starts with an ASCII letter, and is already lower-case. -/
theorem scheme_facts (u : List Char) :
    (urlsplitL u).scheme = [] ∨
    ((urlsplitL u).scheme ≠ [] ∧ (urlsplitL u).scheme.all isSchemeChar = true ∧
      isAsciiAlpha ((urlsplitL u).scheme.headD ' ') = true ∧
      (urlsplitL u).scheme.map lowerChar = (urlsplitL u).scheme) := by
  have hs : (urlsplitL u).scheme = (splitScheme u).1 := rfl
  rcases splitScheme_cases u with h | ⟨pre, rest, hso, hne, hhead, hall, h⟩
  · left
    rw [hs, h]
  · right
    rw [hs, h]
    refine ⟨?_, ?_, ?_, map_lowerChar_idem pre⟩
    · intro hmap
      exact hne (by simpa using hmap)
    · rw [List.all_eq_true] at hall ⊢
      intro x hx
      obtain ⟨c, hc, rfl⟩ := List.mem_map.mp hx
      exact isSchemeChar_lower (hall c hc)
    · match pre, hne, hhead with
      | c :: t, _, hhead => exact isAsciiAlpha_lower hhead

/-- The post-scheme remainder when no scheme was detected. -/
theorem splitScheme_none_rest {u : List Char} (h : (urlsplitL u).scheme = []) :
    (splitScheme u).2 = u ∧ splitScheme u = ([], u) := by
  rcases splitScheme_cases u with h' | ⟨pre, rest, hso, hne, hh, ha, h'⟩
  · exact ⟨by rw [h'], h'⟩
  · have : (urlsplitL u).scheme = pre.map lowerChar := by
      have : (urlsplitL u).scheme = (splitScheme u).1 := rfl
      rw [this, h']
    rw [h] at this
    exact absurd (by simpa using this.symm) hne

/-- Re-detecting a well-formed lower-case scheme. -/
theorem splitScheme_pos_out {s : List Char} (rest : List Char) (hne : s ≠ [])
    (hall : s.all isSchemeChar = true) (hhead : isAsciiAlpha (s.headD ' ') = true)
    (hlow : s.map lowerChar = s) :
    splitScheme (s ++ ':' :: rest) = (s, rest) := by
  have hnc : ':' ∉ s := by
    intro hm
    rw [List.all_eq_true] at hall
    exact schemeChar_ne_colon (hall ':' hm) rfl
  unfold splitScheme
  rw [splitOnFirst_append hnc]
  simp only [if_pos (⟨hne, hhead, hall⟩ : s ≠ [] ∧ isAsciiAlpha (s.headD ' ') = true ∧
    s.all isSchemeChar = true)]
  rw [hlow]

/-- A list starting with a non-letter yields no scheme. -/
theorem splitScheme_head_not_alpha {c : Char} {t : List Char}
    (hc : isAsciiAlpha c = false) : splitScheme (c :: t) = ([], c :: t) := by
  unfold splitScheme
  rcases h : splitOnFirst ':' (c :: t) with _ | ⟨pre, rest⟩
  · rfl
  · obtain ⟨hd, -⟩ := splitOnFirst_eq_some h
    have hfail : ¬ (pre ≠ [] ∧ isAsciiAlpha (pre.headD ' ') = true ∧
        pre.all isSchemeChar = true) := by
      rintro ⟨hne, hh, -⟩
      cases pre with
      | nil => exact hne rfl
      | cons d pre' =>
        have hcd : c = d := by
          have := congrArg (fun l => l.headD ' ') hd
          simpa using this
        simp only [List.headD_cons] at hh
        rw [hcd] at hc
        rw [hc] at hh
        cases hh
    simp only [if_neg hfail]

/-- If the original URL yielded no scheme, neither does the rebuilt
body `path' ++ query-part`, provided the path survives as a prefix of
the original and the query part is empty or starts with `?`. -/
theorem splitScheme_none_prefix {u p' qpart t0 : List Char}
    (hs : splitScheme u = ([], u))
    (hu : u = p' ++ t0)
    (hq : qpart = [] ∨ ∃ q, qpart = '?' :: q) :
    splitScheme (p' ++ qpart) = ([], p' ++ qpart) := by
  unfold splitScheme
  rcases hsp : splitOnFirst ':' (p' ++ qpart) with _ | ⟨pre, rest⟩
  · rfl
  · have hfail : ¬ (pre ≠ [] ∧ isAsciiAlpha (pre.headD ' ') = true ∧
        pre.all isSchemeChar = true) := by
      rintro ⟨hne, hh, hall⟩
      by_cases hcol : ':' ∈ p'
      · obtain ⟨a, b, hp'd, hna⟩ := exists_first_split hcol
        have h1 : splitOnFirst ':' (p' ++ qpart) = some (a, b ++ qpart) := by
          rw [hp'd, List.append_assoc, List.cons_append]
          exact splitOnFirst_append hna
        rw [hsp] at h1
        have hpa : pre = a := by
          cases h1
          rfl
        subst hpa
        have h2 : splitOnFirst ':' u = some (pre, b ++ t0) := by
          rw [hu, hp'd, List.append_assoc, List.cons_append]
          exact splitOnFirst_append hna
        have h3 : splitScheme u = (pre.map lowerChar, b ++ t0) := by
          unfold splitScheme
          rw [h2]
          simp only [if_pos (⟨hne, hh, hall⟩ : pre ≠ [] ∧
            isAsciiAlpha (pre.headD ' ') = true ∧ pre.all isSchemeChar = true)]
        have hfst := congrArg Prod.fst (hs.symm.trans h3)
        have hnil : pre = [] := by simpa using hfst.symm
        exact hne hnil
      · have h1 : splitOnFirst ':' (p' ++ qpart) =
            (splitOnFirst ':' qpart).map (fun p => (p' ++ p.1, p.2)) :=
          splitOnFirst_append_left qpart hcol
        rw [hsp] at h1
        rcases hq with hq | ⟨q, hq⟩
        · subst hq
          simp [splitOnFirst] at h1
        · subst hq
          rcases hq2 : splitOnFirst ':' q with _ | ⟨a', b'⟩
          · have hnone : splitOnFirst ':' ('?' :: q) = none := by
              unfold splitOnFirst
              rw [if_neg (by decide : ¬ ('?' = ':')), hq2]
            rw [hnone] at h1
            cases h1
          · have hsome : splitOnFirst ':' ('?' :: q) = some ('?' :: a', b') := by
              unfold splitOnFirst
              rw [if_neg (by decide : ¬ ('?' = ':')), hq2]
            rw [hsome] at h1
            have hpre : pre = p' ++ '?' :: a' := by
              simp only [Option.map_some'] at h1
              cases h1
              rfl
            have hqm : '?' ∈ pre := by
              rw [hpre]
              simp
            rw [List.all_eq_true] at hall
            exact schemeChar_ne_qmark (hall '?' hqm) rfl
    simp only [if_neg hfail]

/-! ### Netloc round-trip lemmas -/

/-- A `//`-prefix recovers exactly the delimiter-free authority. -/
theorem netloc_out {n rest2 : List Char}
    (hn : ∀ x ∈ n, isNetlocDelim x = false)
    (hrest : rest2 = [] ∨ ∃ y t, rest2 = y :: t ∧ isNetlocDelim y = true) :
    netlocPart ('/' :: '/' :: (n ++ rest2)) = n ∧
    netlocRest ('/' :: '/' :: (n ++ rest2)) = rest2 := by
  have htw := takeWhile_append_blocked (p := fun c => !(isNetlocDelim c)) (a := n) rest2
    (fun x hx => by simp [hn x hx])
    (by
      rcases hrest with h | ⟨y, t, h, hy⟩
      · left
        exact h
      · right
        exact ⟨y, t, h, by simp [hy]⟩)
  constructor
  · unfold netlocPart
    rw [if_pos (show List.take 2 ('/' :: '/' :: (n ++ rest2)) = ['/', '/'] from rfl)]
    exact htw.1
  · unfold netlocRest
    rw [if_pos (show List.take 2 ('/' :: '/' :: (n ++ rest2)) = ['/', '/'] from rfl)]
    exact htw.2

/-- Lists whose first two characters are slashes. -/
theorem take2_slash2 {l : List Char} (h : l.take 2 = ['/', '/']) :
    ∃ t, l = '/' :: '/' :: t := by
  cases l with
  | nil => cases h
  | cons c1 l1 =>
    cases l1 with
    | nil => cases h
    | cons c2 t =>
      have h1 : c1 = '/' ∧ c2 = '/' := by
        have := h
        simp only [List.take, List.cons.injEq] at this
        exact ⟨this.1, this.2.1⟩
      exact ⟨t, by rw [h1.1, h1.2]⟩

/-- Appending a `?`-headed or empty query part cannot create a `//`
prefix if the path part does not have one. -/
theorem take2_ne_of_parts {p' qpart : List Char}
    (hp : p'.take 2 ≠ ['/', '/'])
    (hq : qpart = [] ∨ ∃ q, qpart = '?' :: q) :
    (p' ++ qpart).take 2 ≠ ['/', '/'] := by
  intro h
  obtain ⟨t, ht⟩ := take2_slash2 h
  cases p' with
  | nil =>
    rcases hq with hq | ⟨q, hq⟩ <;> subst hq
    · cases ht
    · simp only [List.nil_append] at ht
      cases ht
  | cons c1 l1 =>
    cases l1 with
    | nil =>
      simp only [List.cons_append, List.nil_append, List.cons.injEq] at ht
      rcases hq with hq | ⟨q, hq⟩ <;> subst hq
      · cases ht.2
      · have := ht.2
        simp only [List.cons.injEq] at this
        exact absurd this.1 (by decide)
    | cons c2 l2 =>
      simp only [List.cons_append, List.cons.injEq] at ht
      apply hp
      rw [ht.1, ht.2.1]
      rfl

/-! ### `urlunsplit` branch equations and reassembly lemmas -/

/-- `urlunparse` with empty params is `urlunsplit`. -/
theorem urlunparseL_params_nil (s n p q f : List Char) :
    urlunparseL s n p [] q f = urlunsplitL s n p q f := by
  unfold urlunparseL
  rw [if_neg (show ¬ (([] : List Char) ≠ []) from fun h => h rfl)]

/-- `urlunsplit` when the `//` marker is emitted and no slash is
inserted before the path. -/
theorem urlunsplitL_emit {s n p q : List Char}
    (hE : n ≠ [] ∨ (s ≠ [] ∧ s ∈ usesNetlocSchemes ∧ p.take 2 ≠ ['/', '/']))
    (hins : ¬ (p ≠ [] ∧ p.headD '/' ≠ '/')) :
    urlunsplitL s n p q [] =
      (if s ≠ [] then s ++ ':' :: ('/' :: '/' :: (n ++ p))
       else '/' :: '/' :: (n ++ p)) ++ qTail q := by
  simp only [urlunsplitL, qTail]
  rw [if_pos hE, if_neg hins,
    if_neg (show ¬ (([] : List Char) ≠ []) from fun h => h rfl)]
  by_cases hq : q = []
  · rw [if_neg (show ¬ (q ≠ []) from fun h => h hq), if_pos hq, List.append_nil]
    simp [List.cons_append, List.append_assoc]
  · rw [if_pos hq, if_neg hq]
    simp [List.cons_append, List.append_assoc]

/-- `urlunsplit` when the `//` marker is emitted and a slash is
inserted before the relative path. -/
theorem urlunsplitL_emit_ins {s n p q : List Char}
    (hE : n ≠ [] ∨ (s ≠ [] ∧ s ∈ usesNetlocSchemes ∧ p.take 2 ≠ ['/', '/']))
    (hins : p ≠ [] ∧ p.headD '/' ≠ '/') :
    urlunsplitL s n p q [] =
      (if s ≠ [] then s ++ ':' :: ('/' :: '/' :: (n ++ '/' :: p))
       else '/' :: '/' :: (n ++ '/' :: p)) ++ qTail q := by
  simp only [urlunsplitL, qTail]
  rw [if_pos hE, if_pos hins,
    if_neg (show ¬ (([] : List Char) ≠ []) from fun h => h rfl)]
  by_cases hq : q = []
  · rw [if_neg (show ¬ (q ≠ []) from fun h => h hq), if_pos hq, List.append_nil]
    simp [List.cons_append, List.append_assoc]
  · rw [if_pos hq, if_neg hq]
    simp [List.cons_append, List.append_assoc]

/-- `urlunsplit` when no `//` marker is emitted. -/
theorem urlunsplitL_no_emit {s n p q : List Char}
    (hE : ¬ (n ≠ [] ∨ (s ≠ [] ∧ s ∈ usesNetlocSchemes ∧ p.take 2 ≠ ['/', '/']))) :
    urlunsplitL s n p q [] =
      (if s ≠ [] then s ++ ':' :: p else p) ++ qTail q := by
  simp only [urlunsplitL, qTail]
  rw [if_neg hE, if_neg (show ¬ (([] : List Char) ≠ []) from fun h => h rfl)]
  by_cases hq : q = []
  · rw [if_neg (show ¬ (q ≠ []) from fun h => h hq), if_pos hq, List.append_nil]
  · rw [if_pos hq, if_neg hq]

/-- The query tail is empty or starts with `?`. -/
theorem qTail_shape (q : List Char) : qTail q = [] ∨ ∃ t, qTail q = '?' :: t := by
  unfold qTail
  by_cases h : q = []
  · rw [if_pos h]
    exact Or.inl rfl
  · rw [if_neg h]
    exact Or.inr ⟨q, rfl⟩

/-- Reassembling an `urlsplit` result from stage outputs. -/
theorem urlsplitL_assemble {v s r0 n2 p2 q2 : List Char}
    (h1 : splitScheme v = (s, r0))
    (h2 : netlocPart r0 = n2)
    (h3 : netlocRest r0 = p2 ++ qTail q2)
    (h4 : '#' ∉ p2) (h5 : '#' ∉ q2) (h6 : '?' ∉ p2) :
    urlsplitL v = ⟨s, n2, p2, q2, []⟩ := by
  have hq4 : '#' ∉ p2 ++ qTail q2 := by
    intro hm
    rcases List.mem_append.mp hm with hm | hm
    · exact h4 hm
    · unfold qTail at hm
      by_cases hq : q2 = []
      · rw [if_pos hq] at hm
        simp at hm
      · rw [if_neg hq] at hm
        rcases List.mem_cons.mp hm with hm | hm
        · exact absurd hm (by decide)
        · exact h5 hm
  have hfq : splitFragment (p2 ++ qTail q2) = (p2 ++ qTail q2, []) := splitFragment_no hq4
  have hqq : splitQuery (p2 ++ qTail q2) = (p2, q2) := by
    unfold qTail
    by_cases hq : q2 = []
    · rw [if_pos hq, List.append_nil, splitQuery_no h6, hq]
    · rw [if_neg hq]
      exact splitQuery_at h6
  have hA : (splitQuery (splitFragment (netlocRest r0)).1).1 = p2 := by
    rw [h3, hfq]
    show (splitQuery (p2 ++ qTail q2)).1 = p2
    rw [hqq]
  have hB : (splitQuery (splitFragment (netlocRest r0)).1).2 = q2 := by
    rw [h3, hfq]
    show (splitQuery (p2 ++ qTail q2)).2 = q2
    rw [hqq]
  have hC : (splitFragment (netlocRest r0)).2 = [] := by
    rw [h3, hfq]
  unfold urlsplitL
  rw [h1]
  show (⟨s, netlocPart r0, (splitQuery (splitFragment (netlocRest r0)).1).1,
      (splitQuery (splitFragment (netlocRest r0)).1).2,
      (splitFragment (netlocRest r0)).2⟩ : SplitResult) = ⟨s, n2, p2, q2, []⟩
  rw [h2, hA, hB, hC]

/-- One application of `normalize_url` on a parameter-free URL. -/
theorem normalizeList_eq_out {u : List Char} (hsemi : ';' ∉ (urlsplitL u).path) :
    normalizeList u =
      urlunsplitL (urlsplitL u).scheme ((urlsplitL u).netloc.map lowerChar)
        (normalizePath (urlsplitL u).path) (urlsplitL u).query [] := by
  unfold normalizeList urlparseL
  rw [splitParams_no_semi hsemi]
  rfl

/-- A URL whose parse has empty fragment and params, an already
lower-case authority, an already normalized path, and which
`urlunsplit` maps back to itself is a fixed point of normalization. -/
theorem normalize_fix_of {out s2 n2 p2 q2 : List Char}
    (hsplit : urlsplitL out = ⟨s2, n2, p2, q2, []⟩)
    (hsemi : ';' ∉ p2)
    (hlow : n2.map lowerChar = n2)
    (hpath : normalizePath p2 = p2)
    (hout : urlunsplitL s2 n2 p2 q2 [] = out) :
    normalizeList out = out := by
  unfold normalizeList urlparseL
  rw [hsplit]
  show urlunparseL s2 (n2.map lowerChar) (normalizePath (splitParams p2).1)
      (splitParams p2).2 q2 [] = out
  rw [splitParams_no_semi hsemi]
  show urlunsplitL s2 (n2.map lowerChar) (normalizePath p2) q2 [] = out
  rw [hlow, hpath]
  exact hout

/-- A nonempty parsed authority forces the `//` prefix. -/
theorem netlocPart_ne_imp {r : List Char} (h : netlocPart r ≠ []) :
    r.take 2 = ['/', '/'] := by
  by_cases h2 : r.take 2 = ['/', '/']
  · exact h2
  · exfalso
    apply h
    unfold netlocPart
    rw [if_neg h2]

/-- Without a `//` prefix the netloc stage is the identity. -/
theorem netloc_stage_no {r : List Char} (h : r.take 2 ≠ ['/', '/']) :
    netlocPart r = [] ∧ netlocRest r = r := by
  constructor
  · unfold netlocPart
    rw [if_neg h]
  · unfold netlocRest
    rw [if_neg h]

/-- A list starting with a nonempty prefix has that prefix's head. -/
theorem headD_of_append {a l t : List Char} {d : Char} (h : l = a ++ t)
    (ha : a ≠ []) : l.headD d = a.headD d := by
  cases a with
  | nil => exact absurd rfl ha
  | cons c a2 =>
    rw [h]
    rfl

/-- The parsed path is a prefix of the post-netloc remainder. -/
theorem path_prefix_rest1 (u : List Char) :
    ∃ t, netlocRest (splitScheme u).2 = (urlsplitL u).path ++ t := by
  obtain ⟨-, tf, hf⟩ := splitFragment_fst (netlocRest (splitScheme u).2)
  obtain ⟨-, tq, hq⟩ := splitQuery_fst (splitFragment (netlocRest (splitScheme u).2)).1
  refine ⟨tq ++ tf, ?_⟩
  show netlocRest (splitScheme u).2 =
    (splitQuery (splitFragment (netlocRest (splitScheme u).2)).1).1 ++ (tq ++ tf)
  rw [← List.append_assoc, ← hq]
  exact hf

/-- When the post-scheme remainder starts with `//`, the parsed path is
empty or starts with a slash. -/
theorem path_head_slash {u : List Char}
    (h2 : (splitScheme u).2.take 2 = ['/', '/']) :
    (urlsplitL u).path = [] ∨ (urlsplitL u).path.headD ' ' = '/' := by
  obtain ⟨t, ht⟩ := path_prefix_rest1 u
  by_cases hp : (urlsplitL u).path = []
  · exact Or.inl hp
  · right
    have hhd : (netlocRest (splitScheme u).2).headD ' ' =
        (urlsplitL u).path.headD ' ' := headD_of_append ht hp
    have hrest : netlocRest (splitScheme u).2 =
        ((splitScheme u).2.drop 2).dropWhile (fun c => !(isNetlocDelim c)) := by
      unfold netlocRest
      rw [if_pos h2]
    rcases hne : netlocRest (splitScheme u).2 with _ | ⟨y, t1⟩
    · rw [hne] at ht
      exact absurd (List.append_eq_nil.mp ht.symm).1 hp
    · have hy : isNetlocDelim y = true := by
        rw [hne] at hrest
        have := dropWhile_head_false (p := fun c => !(isNetlocDelim c)) hrest.symm
        simpa using this
      have hpy : (urlsplitL u).path.headD ' ' = y := by
        rw [← hhd, hne]
        rfl
      have hy3 : y = '/' ∨ y = '?' ∨ y = '#' := by
        have := of_decide_eq_true hy
        exact this
      obtain ⟨hnh, hnq⟩ := path_no_specials u
      cases hp2 : (urlsplitL u).path with
      | nil => exact absurd hp2 hp
      | cons z zs =>
        have hz : z = y := by
          rw [hp2] at hpy
          exact hpy
        have hzy : y ∈ (urlsplitL u).path := by
          rw [hp2, hz]
          exact List.mem_cons_self _ _
        rcases hy3 with h | h | h
        · show z = '/'
          rw [hz]
          exact h
        · exact absurd (h ▸ hzy) hnq
        · exact absurd (h ▸ hzy) hnh

/-- A slash-headed or empty body followed by an optional query part
yields no scheme on reparse. -/
theorem splitScheme_slash_or_query {p2 qpart : List Char}
    (hp : p2 = [] ∨ p2.headD ' ' = '/')
    (hq : qpart = [] ∨ ∃ q, qpart = '?' :: q) :
    splitScheme (p2 ++ qpart) = ([], p2 ++ qpart) := by
  rcases hp with hp | hp
  · subst hp
    rw [List.nil_append]
    rcases hq with hq | ⟨qq, hq⟩
    · subst hq
      rfl
    · subst hq
      exact splitScheme_head_not_alpha (by decide)
  · cases p2 with
    | nil =>
      simp only [List.headD_nil] at hp
      exact absurd hp (by decide)
    | cons c t =>
      have hc : c = '/' := by simpa using hp
      subst hc
      rw [List.cons_append]
      exact splitScheme_head_not_alpha (by decide)

/-- A slash-headed or empty path followed by the query tail starts with
a netloc delimiter (or is empty). -/
theorem rest2_shape {p2 : List Char} (q : List Char)
    (hp : p2 = [] ∨ p2.headD ' ' = '/') :
    p2 ++ qTail q = [] ∨ ∃ y t, p2 ++ qTail q = y :: t ∧ isNetlocDelim y = true := by
  rcases hp with hp | hp
  · subst hp
    rcases qTail_shape q with h | ⟨t, h⟩
    · left
      rw [List.nil_append]
      exact h
    · right
      refine ⟨'?', t, ?_, by decide⟩
      rw [List.nil_append]
      exact h
  · cases p2 with
    | nil =>
      simp only [List.headD_nil] at hp
      exact absurd hp (by decide)
    | cons c t =>
      have hc : c = '/' := by simpa using hp
      subst hc
      exact Or.inr ⟨'/', t ++ qTail q, rfl, by decide⟩

/-- Core round trip: a component tuple that is already in normal form
(lower-case authority, normalized path, no params, no fragment, and the
structural side conditions produced by a parse) is reassembled by
`urlunsplit` into a URL that is a fixed point of `normalizeList`. -/
theorem renorm_fixed {s n p q : List Char}
    (hsall : s = [] ∨ (s ≠ [] ∧ s.all isSchemeChar = true ∧
      isAsciiAlpha (s.headD ' ') = true ∧ s.map lowerChar = s))
    (hnd : ∀ x ∈ n, isNetlocDelim x = false)
    (hnlow : n.map lowerChar = n)
    (hnoh : '#' ∉ p) (hnoq : '?' ∉ p) (hnos : ';' ∉ p)
    (hpfix : normalizePath p = p)
    (hqnoh : '#' ∉ q)
    (hpshape : n = [] → p.take 2 ≠ ['/', '/'])
    (hpslash : n ≠ [] → p = [] ∨ p.headD ' ' = '/')
    (hnoscheme : s = [] → n = [] →
      splitScheme (p ++ qTail q) = ([], p ++ qTail q)) :
    normalizeList (urlunsplitL s n p q []) = urlunsplitL s n p q [] := by
  by_cases hn : n = []
  · subst hn
    have hp2 : p.take 2 ≠ ['/', '/'] := hpshape rfl
    by_cases hE : s ≠ [] ∧ s ∈ usesNetlocSchemes
    · -- the `//` marker is emitted despite the empty authority
      have hEfull : ([] : List Char) ≠ [] ∨ (s ≠ [] ∧ s ∈ usesNetlocSchemes ∧
          p.take 2 ≠ ['/', '/']) := Or.inr ⟨hE.1, hE.2, hp2⟩
      rcases hsall with h | ⟨hsne, hsall2, hshead, hslow⟩
      · exact absurd h hE.1
      by_cases hins : p ≠ [] ∧ p.headD '/' ≠ '/'
      · -- a slash is inserted before the relative path
        have hout := urlunsplitL_emit_ins (q := q) hEfull hins
        have hsemi2 : ';' ∉ '/' :: p := by
          intro hm
          rcases List.mem_cons.mp hm with h | h
          · exact absurd h (by decide)
          · exact hnos h
        have hnoh2 : '#' ∉ '/' :: p := by
          intro hm
          rcases List.mem_cons.mp hm with h | h
          · exact absurd h (by decide)
          · exact hnoh h
        have hnoq2 : '?' ∉ '/' :: p := by
          intro hm
          rcases List.mem_cons.mp hm with h | h
          · exact absurd h (by decide)
          · exact hnoq h
        have hpne1 : p ≠ ['/'] := by
          intro h
          apply hins.2
          rw [h]
          rfl
        have hplast := normalizePath_last hpne1
        rw [hpfix] at hplast
        have hpath2 : normalizePath ('/' :: p) = '/' :: p := by
          rcases hplast with h | ⟨t, x, hpx, hx⟩
          · exact absurd h hins.1
          · unfold normalizePath
            rw [if_neg (show ¬ ('/' :: p = ['/']) from by
              intro hh
              injection hh with h1 h2
              exact hins.1 h2)]
            exact rstripSlash_of_last_ne (t := '/' :: t)
              (by rw [hpx]; rfl) hx
        have h2p : ('/' :: p).take 2 ≠ ['/', '/'] := by
          intro hh
          obtain ⟨t2, ht2⟩ := take2_slash2 hh
          injection ht2 with h1 h2
          apply hins.2
          rw [h2]
          rfl
        have hins2 : ¬ ('/' :: p ≠ [] ∧ ('/' :: p).headD '/' ≠ '/') := by
          rintro ⟨-, hh⟩
          exact hh rfl
        have hE2 : ([] : List Char) ≠ [] ∨ (s ≠ [] ∧ s ∈ usesNetlocSchemes ∧
            ('/' :: p).take 2 ≠ ['/', '/']) := Or.inr ⟨hE.1, hE.2, h2p⟩
        have hout2 : urlunsplitL s [] ('/' :: p) q [] = urlunsplitL s [] p q [] :=
          (urlunsplitL_emit hE2 hins2).trans hout.symm
        have hout3 : urlunsplitL s [] p q [] =
            s ++ ':' :: ('/' :: '/' :: (([] : List Char) ++
              ('/' :: (p ++ qTail q)))) := by
          rw [hout, if_pos hsne]
          simp
        have h1 : splitScheme (urlunsplitL s [] p q []) =
            (s, '/' :: '/' :: (([] : List Char) ++ ('/' :: (p ++ qTail q)))) := by
          rw [hout3]
          exact splitScheme_pos_out _ hsne hsall2 hshead hslow
        have hnl := @netloc_out [] ('/' :: (p ++ qTail q))
          (fun x hx => absurd hx (List.not_mem_nil x))
          (Or.inr ⟨'/', p ++ qTail q, rfl, by decide⟩)
        have hsplit : urlsplitL (urlunsplitL s [] p q []) = ⟨s, [], '/' :: p, q, []⟩ :=
          urlsplitL_assemble h1 hnl.1 hnl.2 hnoh2 hqnoh hnoq2
        exact normalize_fix_of hsplit hsemi2 rfl hpath2 hout2
      · -- no slash insertion
        have hout := urlunsplitL_emit (q := q) hEfull hins
        have hps2 : p = [] ∨ p.headD ' ' = '/' := by
          by_cases hp0 : p = []
          · exact Or.inl hp0
          · right
            cases p with
            | nil => exact absurd rfl hp0
            | cons c t =>
              by_contra hc
              exact hins ⟨hp0, by simpa using hc⟩
        have hout3 : urlunsplitL s [] p q [] =
            s ++ ':' :: ('/' :: '/' :: (([] : List Char) ++ (p ++ qTail q))) := by
          rw [hout, if_pos hsne]
          simp
        have h1 : splitScheme (urlunsplitL s [] p q []) =
            (s, '/' :: '/' :: (([] : List Char) ++ (p ++ qTail q))) := by
          rw [hout3]
          exact splitScheme_pos_out _ hsne hsall2 hshead hslow
        have hnl := @netloc_out [] (p ++ qTail q)
          (fun x hx => absurd hx (List.not_mem_nil x)) (rest2_shape q hps2)
        have hsplit : urlsplitL (urlunsplitL s [] p q []) = ⟨s, [], p, q, []⟩ :=
          urlsplitL_assemble h1 hnl.1 hnl.2 hnoh hqnoh hnoq
        exact normalize_fix_of hsplit hnos rfl hpfix rfl
    · -- no `//` marker is emitted
      have hEfull : ¬ (([] : List Char) ≠ [] ∨ (s ≠ [] ∧ s ∈ usesNetlocSchemes ∧
          p.take 2 ≠ ['/', '/'])) := by
        rintro (h | ⟨h1, h2, -⟩)
        · exact h rfl
        · exact hE ⟨h1, h2⟩
      have hout := urlunsplitL_no_emit (q := q) hEfull
      have htk : (p ++ qTail q).take 2 ≠ ['/', '/'] :=
        take2_ne_of_parts hp2 (qTail_shape q)
      have hns := netloc_stage_no htk
      by_cases hse : s = []
      · subst hse
        have hout2 : urlunsplitL [] [] p q [] = p ++ qTail q := by
          rw [hout, if_neg (show ¬ (([] : List Char) ≠ []) from fun h => h rfl)]
        have h1 : splitScheme (urlunsplitL [] [] p q []) = ([], p ++ qTail q) := by
          rw [hout2]
          exact hnoscheme rfl rfl
        have hsplit : urlsplitL (urlunsplitL [] [] p q []) = ⟨[], [], p, q, []⟩ :=
          urlsplitL_assemble h1 hns.1 hns.2 hnoh hqnoh hnoq
        exact normalize_fix_of hsplit hnos rfl hpfix rfl
      · rcases hsall with h | ⟨hsne, hsall2, hshead, hslow⟩
        · exact absurd h hse
        have hout2 : urlunsplitL s [] p q [] = s ++ ':' :: (p ++ qTail q) := by
          rw [hout, if_pos hsne]
          simp
        have h1 : splitScheme (urlunsplitL s [] p q []) = (s, p ++ qTail q) := by
          rw [hout2]
          exact splitScheme_pos_out _ hsne hsall2 hshead hslow
        have hsplit : urlsplitL (urlunsplitL s [] p q []) = ⟨s, [], p, q, []⟩ :=
          urlsplitL_assemble h1 hns.1 hns.2 hnoh hqnoh hnoq
        exact normalize_fix_of hsplit hnos rfl hpfix rfl
  · -- nonempty authority: the `//` marker is always emitted
    have hps2 := hpslash hn
    have hins : ¬ (p ≠ [] ∧ p.headD '/' ≠ '/') := by
      rintro ⟨hpne, hph⟩
      rcases hps2 with h | h
      · exact hpne h
      · apply hph
        cases p with
        | nil => exact absurd rfl hpne
        | cons c t => simpa using h
    have hout := urlunsplitL_emit (s := s) (q := q) (Or.inl hn) hins
    have hnl := netloc_out hnd (rest2_shape q hps2)
    by_cases hse : s = []
    · subst hse
      have hout2 : urlunsplitL [] n p q [] =
          '/' :: '/' :: (n ++ (p ++ qTail q)) := by
        rw [hout, if_neg (show ¬ (([] : List Char) ≠ []) from fun h => h rfl)]
        simp
      have h1 : splitScheme (urlunsplitL [] n p q []) =
          ([], '/' :: '/' :: (n ++ (p ++ qTail q))) := by
        rw [hout2]
        exact splitScheme_head_not_alpha (by decide)
      have hsplit : urlsplitL (urlunsplitL [] n p q []) = ⟨[], n, p, q, []⟩ :=
        urlsplitL_assemble h1 hnl.1 hnl.2 hnoh hqnoh hnoq
      exact normalize_fix_of hsplit hnos hnlow hpfix rfl
    · rcases hsall with h | ⟨hsne, hsall2, hshead, hslow⟩
      · exact absurd h hse
      have hout2 : urlunsplitL s n p q [] =
          s ++ ':' :: ('/' :: '/' :: (n ++ (p ++ qTail q))) := by
        rw [hout, if_pos hsne]
        simp
      have h1 : splitScheme (urlunsplitL s n p q []) =
          (s, '/' :: '/' :: (n ++ (p ++ qTail q))) := by
        rw [hout2]
        exact splitScheme_pos_out _ hsne hsall2 hshead hslow
      have hsplit : urlsplitL (urlunsplitL s n p q []) = ⟨s, n, p, q, []⟩ :=
        urlsplitL_assemble h1 hnl.1 hnl.2 hnoh hqnoh hnoq
      exact normalize_fix_of hsplit hnos hnlow hpfix rfl

/-- Idempotence of `normalizeList` for semicolon-free URLs whose parse
does not yield an empty authority with a `//`-prefixed path. -/
theorem normalizeList_idem {v : List Char}
    (hsemi : ';' ∉ v)
    (hnet : ¬ ((urlsplitL v).netloc = [] ∧
      (urlsplitL v).path.take 2 = ['/', '/'])) :
    normalizeList (normalizeList v) = normalizeList v := by
  have hsemip : ';' ∉ (urlsplitL v).path := fun hm => hsemi (path_subset v ';' hm)
  have hout1 := normalizeList_eq_out hsemip
  obtain ⟨hpnoh, hpnoq⟩ := path_no_specials v
  have hqnoh := query_no_hash v
  have hnd := netloc_delim_free v
  rw [hout1]
  refine renorm_fixed (scheme_facts v) ?_ (map_lowerChar_idem _)
    (normalizePath_not_mem hpnoh) (normalizePath_not_mem hpnoq)
    (normalizePath_not_mem hsemip) (normalizePath_idem _) hqnoh ?_ ?_ ?_
  · intro x hx
    obtain ⟨c, hc, rfl⟩ := List.mem_map.mp hx
    exact isNetlocDelim_lower (hnd c hc)
  · intro hn0
    have hnn : (urlsplitL v).netloc = [] := List.map_eq_nil_iff.mp hn0
    exact normalizePath_take2 (fun h => hnet ⟨hnn, h⟩)
  · intro hn0
    have hnn : netlocPart (splitScheme v).2 ≠ [] := fun h =>
      hn0 (by
        show ((urlsplitL v).netloc).map lowerChar = []
        have : (urlsplitL v).netloc = netlocPart (splitScheme v).2 := rfl
        rw [this, h]
        rfl)
    have h2 : (splitScheme v).2.take 2 = ['/', '/'] := netlocPart_ne_imp hnn
    rcases path_head_slash h2 with h | h
    · left
      rw [h]
      rfl
    · by_cases hp0 : normalizePath (urlsplitL v).path = []
      · exact Or.inl hp0
      · right
        rw [normalizePath_head hp0]
        exact h
  · intro hs0 hn0
    have hnn : (urlsplitL v).netloc = [] := List.map_eq_nil_iff.mp hn0
    obtain ⟨hr0, hsv⟩ := splitScheme_none_rest hs0
    by_cases h2 : (splitScheme v).2.take 2 = ['/', '/']
    · refine splitScheme_slash_or_query ?_ (qTail_shape _)
      rcases path_head_slash h2 with h | h
      · left
        rw [h]
        rfl
      · by_cases hp0 : normalizePath (urlsplitL v).path = []
        · exact Or.inl hp0
        · right
          rw [normalizePath_head hp0]
          exact h
    · have hns := netloc_stage_no h2
      obtain ⟨t, ht⟩ := path_prefix_rest1 v
      rw [hns.2, hr0] at ht
      obtain ⟨t2, ht2⟩ := normalizePath_decomp (urlsplitL v).path
      have hu : v = normalizePath (urlsplitL v).path ++ (t2 ++ t) := by
        rw [← List.append_assoc, ← ht2]
        exact ht
      exact splitScheme_none_prefix hsv hu (qTail_shape _)

/-- C10 (corrected): `normalize_url` is not idempotent in general — the
params/trailing-slash interaction makes a second application differ
(`http://e/a/;b/` normalizes to `http://e/a/;b`, which normalizes to
`http://e/a;b`) — but it is idempotent on every URL that contains no
semicolon or bracket and whose parse does not produce an empty
authority together with a path starting `//`:
`normalize_url (normalize_url u) = normalize_url u` under those
hypotheses. -/
theorem C10_normalize_idempotent (u : String)
    (hsemi : ';' ∉ u.data)
    (hbr : '[' ∉ u.data ∧ ']' ∉ u.data)
    (hnet : ¬ ((urlsplitL u.data).netloc = [] ∧
      (urlsplitL u.data).path.take 2 = ['/', '/'])) :
    normalize_url (normalize_url u) = normalize_url u := by
  have key := normalizeList_idem hsemi hnet
  show String.mk (normalizeList (normalizeList u.data)) =
    String.mk (normalizeList u.data)
  rw [key]

/-- Witness for C10 on `http://Ex.com/a/`: the hypotheses hold and the
normalized form is a fixed point. -/
theorem C10_witness :
    (';' ∉ ("http://Ex.com/a/" : String).data ∧
      ('[' ∉ ("http://Ex.com/a/" : String).data ∧
        ']' ∉ ("http://Ex.com/a/" : String).data) ∧
      ¬ ((urlsplitL ("http://Ex.com/a/" : String).data).netloc = [] ∧
        (urlsplitL ("http://Ex.com/a/" : String).data).path.take 2 = ['/', '/'])) ∧
    normalize_url (normalize_url "http://Ex.com/a/") =
      normalize_url "http://Ex.com/a/" :=
  ⟨⟨by decide, ⟨by decide, by decide⟩, by decide⟩,
    C10_normalize_idempotent "http://Ex.com/a/" (by decide) ⟨by decide, by decide⟩
      (by decide)⟩

/-- C10 counterexample: on `http://e/a/;b/` the params/trailing-slash
interaction makes the second normalization differ from the first
(`http://e/a/;b` vs `http://e/a;b`), refuting unconditional
idempotence. -/
theorem C10_counterexample :
    normalize_url (normalize_url "http://e/a/;b/") ≠
      normalize_url "http://e/a/;b/" := by
  decide

end ReferralAgent
